import Mathlib

/-!
Field renderer: a shallow embedding of `fieldrenderer.Run`

Source: `go/pkg/field-renderer/field_renderer.go`.

Modelling conventions.

* Go `float64` values are modelled by exact rationals `ℚ`; every statement about
  buffer values is therefore a statement about exact arithmetic.
* Go `int` is modelled by `Nat`/`Int` without wraparound (grid sizes whose product
  does not fit a machine word cannot be allocated).  The completion counter is an
  `int32` in the source, so its increments wrap explicitly (`wrapInt32`).
* The goroutines of the evaluator are modelled by the list of cells each worker
  visits; a schedule is any ordering of all the workers' cell visits.
* An index that is out of range makes the Go program abort; the embedding
  returns `none` there.
-/

namespace FieldRenderer

/-! ## Grid evaluator (source lines 36-54) -/

/-- Two's-complement wraparound of a Go `int32`. -/
def wrapInt32 (n : Int) : Int :=
  (n + 2147483648) % 4294967296 - 2147483648

/-- State shared by the workers: the value buffer `data` and the counter `cnt`. -/
structure EvalState where
  data : List ℚ
  cnt : Int
deriving DecidableEq, Repr

/-- The state after `data := make([]float64, Width*Height)` and `cnt := int32(0)`. -/
def initState (width height : Nat) : EvalState :=
  { data := List.replicate (width * height) 0, cnt := 0 }

/-- The innermost loop body of a worker at cell `(x, y)`:
`data[y*Width+x] = Field(x, y); atomic.AddInt32(&cnt, 1)`.
The result is `none` when the index is out of range. -/
def evalCell (width : Nat) (field : Nat → Nat → ℚ) (st : EvalState) (c : Nat × Nat) :
    Option EvalState :=
  let idx := c.2 * width + c.1
  if idx < st.data.length then
    some { data := st.data.set idx (field c.1 c.2), cnt := wrapInt32 (st.cnt + 1) }
  else
    none

/-- The cells visited, in order, by worker `i` out of `workers`:
`for x < Width { if x % workers != i { continue }; for y < Height { ... } }`. -/
def workerCells (workers width height i : Nat) : List (Nat × Nat) :=
  (List.range width).flatMap fun x =>
    if x % workers != i then [] else (List.range height).map fun y => (x, y)

/-- The columns on which worker `i` does not `continue`. -/
def workerColumns (workers width i : Nat) : List Nat :=
  (List.range width).filter fun x => !(x % workers != i)

/-- All cell visits of workers `0 .. workers-1`, worker after worker. -/
def allWorkerCells (workers width height : Nat) : List (Nat × Nat) :=
  (List.range workers).flatMap fun i => workerCells workers width height i

/-- Runs the loop body on a sequence of cell visits. -/
def runCells (width : Nat) (field : Nat → Nat → ℚ) (st : EvalState) :
    List (Nat × Nat) → Option EvalState
  | [] => some st
  | c :: cs =>
    match evalCell width field st c with
    | none => none
    | some st1 => runCells width field st1 cs

/-- How often the loop body, and so the field function, is run at cell `c` in a
sequence of cell visits. -/
def visits (cs : List (Nat × Nat)) (c : Nat × Nat) : Nat :=
  cs.countP fun d => decide (d = c)

/-- A schedule of the evaluator: any ordering of all the workers' cell visits.
Every interleaving of the worker goroutines is such an ordering. -/
def IsSchedule (workers width height : Nat) (sched : List (Nat × Nat)) : Prop :=
  sched.Perm (allWorkerCells workers width height)

instance (workers width height : Nat) (sched : List (Nat × Nat)) :
    Decidable (IsSchedule workers width height sched) := by
  unfold IsSchedule
  infer_instance

/-- The evaluator with the workers run one after another. -/
def evaluate (workers width height : Nat) (field : Nat → Nat → ℚ) : Option EvalState :=
  runCells width field (initState width height) (allWorkerCells workers width height)

/-! ## Progress reporter (source lines 56-74) -/

/-- What the reporter prints: a status line with the percentage, or the final line. -/
inductive Output where
  | status (progress : ℚ)
  | complete
deriving DecidableEq, Repr

/-- State of the reporter goroutine: the threshold `nextMark`, the lines printed so
far (oldest first) and whether it has closed `counterDone` and returned. -/
structure ReporterState where
  nextMark : ℚ
  out : List Output
  done : Bool
deriving DecidableEq, Repr

/-- The reporter before its first poll: `nextMark := 1.0`. -/
def reporterInit : ReporterState :=
  { nextMark := 1, out := [], done := false }

/-- One iteration of the reporter loop, observing `doneCnt := int(atomic.LoadInt32(&cnt))`
against `total = Width*Height`.  Once the goroutine has returned nothing changes. -/
def reporterPoll (total : Int) (s : ReporterState) (doneCnt : Int) : ReporterState :=
  if s.done then s
  else if doneCnt = total then
    { s with out := s.out ++ [Output.complete], done := true }
  else
    let progress : ℚ := (doneCnt : ℚ) / (total : ℚ) * 100
    if progress ≥ s.nextMark then
      { nextMark := ((⌈progress⌉ : Int) : ℚ), out := s.out ++ [Output.status progress],
        done := false }
    else s

/-- The reporter run over a sequence of polled counter values. -/
def reporterRun (total : Int) (polls : List Int) : ReporterState :=
  polls.foldl (reporterPoll total) reporterInit

/-- The percentages of the status lines among the printed lines. -/
def statusValues : List Output → List ℚ
  | [] => []
  | Output.status p :: rest => p :: statusValues rest
  | Output.complete :: rest => statusValues rest

/-! ## Normalizer (source lines 78-93) -/

/-- The threshold `1e-8` on the spread. -/
def epsilon : ℚ := 1 / 100000000

/-- The body of the min/max loop on the pair `(max, min)`. -/
def minMaxStep (acc : ℚ × ℚ) (v : ℚ) : ℚ × ℚ :=
  (if acc.1 < v then v else acc.1, if acc.2 > v then v else acc.2)

/-- The single pass `max, min := data[0], data[0]; for i := 1; i < len(data); i++`.
Returns `(max, min)`; reading `data[0]` of an empty buffer aborts. -/
def minMax : List ℚ → Option (ℚ × ℚ)
  | [] => none
  | d0 :: rest => some (rest.foldl minMaxStep (d0, d0))

/-- The in-place loop `for i := range data { data[i] = (data[i] - min) / spread }`. -/
def rescaleLoop (mn spread : ℚ) (data : List ℚ) : List ℚ :=
  (List.range data.length).foldl (fun d i => d.set i ((d.getD i 0 - mn) / spread)) data

/-- The normalization step: rescale when `spread >= 1e-8`, else leave the buffer. -/
def normalize (data : List ℚ) : Option (List ℚ) :=
  match minMax data with
  | none => none
  | some (mx, mn) =>
    let spread := mx - mn
    if spread ≥ epsilon then some (rescaleLoop mn spread data) else some data

/-! ## Colour mapper (source lines 95-103) -/

/-- A ramp entry, seen through its method `RGBA()`: four `uint32` channels. -/
structure Color where
  R : Nat
  G : Nat
  B : Nat
  A : Nat
deriving DecidableEq, Repr

/-- A pixel of the `image.RGBA` output image: four 8-bit channels. -/
structure RGBA where
  R : Nat
  G : Nat
  B : Nat
  A : Nat
deriving DecidableEq, Repr

/-- Go conversion `int(f)` of a float: truncation toward zero. -/
def truncToInt (q : ℚ) : Int :=
  if 0 ≤ q then ⌊q⌋ else -⌊-q⌋

/-- The ramp index `pos := int(pixel * float64(len(hm)-1))`. -/
def rampPos (pixel : ℚ) (rampLen : Nat) : Int :=
  truncToInt (pixel * ((((rampLen : Int) - 1 : Int)) : ℚ))

/-- The lookup `hm[pos]`; an index outside `[0, len(hm))` aborts. -/
def rampAt (hm : List Color) (pos : Int) : Option Color :=
  if 0 ≤ pos ∧ pos < (hm.length : Int) then hm[pos.toNat]? else none

/-- What `img.SetRGBA64(x, y, color.RGBA64{uint16(r), uint16(g), uint16(b), uint16(a)})`
stores for the ramp entry: each channel cut to 16 bits, of which `image.RGBA`
keeps the high byte. -/
def pixelOf (c : Color) : RGBA :=
  { R := c.R % 65536 / 256, G := c.G % 65536 / 256,
    B := c.B % 65536 / 256, A := c.A % 65536 / 256 }

/-- Opaque black, as `RGBA()` returns it. -/
def black : Color := ⟨0, 0, 0, 65535⟩

/-- Opaque white, as `RGBA()` returns it. -/
def white : Color := ⟨65535, 65535, 65535, 65535⟩

/-- Opaque red, as `RGBA()` returns it. -/
def red : Color := ⟨65535, 0, 0, 65535⟩

/-- Opaque green, as `RGBA()` returns it. -/
def green : Color := ⟨0, 65535, 0, 65535⟩

/-- Opaque blue, as `RGBA()` returns it. -/
def blue : Color := ⟨0, 0, 65535, 65535⟩

/-- The cells in the order of the colour-mapping loops: `x` outer, `y` inner. -/
def colorCells (width height : Nat) : List (Nat × Nat) :=
  (List.range width).flatMap fun x => (List.range height).map fun y => (x, y)

/-- The body of the colour-mapping loops at cell `(x, y)`; the image is the flat
row-major pixel array of `image.RGBA`. -/
def paintCell (width : Nat) (hm : List Color) (data : List ℚ) (img : List RGBA)
    (c : Nat × Nat) : Option (List RGBA) :=
  match data[c.2 * width + c.1]? with
  | none => none
  | some pixel =>
    match rampAt hm (rampPos pixel hm.length) with
    | none => none
    | some col => some (img.set (c.2 * width + c.1) (pixelOf col))

/-- Runs the colour-mapping body over a sequence of cells. -/
def paintCells (width : Nat) (hm : List Color) (data : List ℚ) (img : List RGBA) :
    List (Nat × Nat) → Option (List RGBA)
  | [] => some img
  | c :: cs =>
    match paintCell width hm data img c with
    | none => none
    | some img1 => paintCells width hm data img1 cs

/-- The colour mapper: `image.NewRGBA(image.Rect(0, 0, Width, Height))` filled by the
two loops. -/
def colorMap (width height : Nat) (hm : List Color) (data : List ℚ) : Option (List RGBA) :=
  paintCells width hm data (List.replicate (width * height) ⟨0, 0, 0, 0⟩)
    (colorCells width height)

/-! ## The pipeline from evaluation to the pixel grid (source lines 36-103) -/

/-- Evaluation under the schedule `sched`, then normalization, then colour mapping. -/
def renderWith (sched : List (Nat × Nat)) (width height : Nat) (field : Nat → Nat → ℚ)
    (hm : List Color) : Option (List RGBA) :=
  match runCells width field (initState width height) sched with
  | none => none
  | some st =>
    match normalize st.data with
    | none => none
    | some data => colorMap width height hm data

/-- The pipeline with the workers run one after another. -/
def render (workers width height : Nat) (field : Nat → Nat → ℚ) (hm : List Color) :
    Option (List RGBA) :=
  renderWith (allWorkerCells workers width height) width height field hm

/-- The buffer indices `y*Width + x` written by worker `i`, in order. -/
def workerIndices (workers width height i : Nat) : List Nat :=
  (workerCells workers width height i).map fun c => c.2 * width + c.1

/-! ## The whole of `Run` (source lines 30-113) -/

/-- The options of a run.  `HeatMapFile` and `Gamma` are only handed to the loader. -/
structure Options where
  HeatMapFile : String
  OutputFile : String
  Gamma : ℚ
  Width : Nat
  Height : Nat
  Field : Nat → Nat → ℚ

/-- What a run depends on besides its options: the result of `heatmap.Load`, the
error of `os.Create` and of `png.Encode` if any (`none` is success), the value of
`runtime.NumCPU()` and the order in which the workers' cell visits happen. -/
structure Env where
  loadResult : Except String (List Color)
  createResult : Option String
  encodeResult : Option String
  workers : Nat
  sched : List (Nat × Nat)

/-- The effects of a run that the claims speak about. -/
inductive Event where
  | allocBuffer (n : Nat)
  | fieldCall (x y : Nat)
  | normalizeBuffer
  | createFile (path : String)
  | encodePNG
deriving DecidableEq, Repr

/-- How a run ends: it returns (`none` is the nil error), it aborts on an index out
of range, or it blocks forever on `<-counterDone`. -/
inductive Outcome where
  | returned (err : Option String)
  | panicked
  | blocked
deriving DecidableEq, Repr

/-- The message of `fmt.Errorf("failed to create output file \x27%v\x27: %v", ...)`. -/
def createErrorMessage (path cause : String) : String :=
  "failed to create output file \x27" ++ path ++ "\x27: " ++ cause

/-- The message of `fmt.Errorf("failed to encode to PNG: %v", err)`. -/
def encodeErrorMessage (cause : String) : String :=
  "failed to encode to PNG: " ++ cause

/-- The function `Run`: its outcome and the effects it had, in order.  After the
workers the main flow waits for the reporter, which closes `counterDone` only when
it reads the counter equal to `Width*Height`; the counter no longer changes then,
so the run blocks exactly when the final counter differs from `Width*Height`. -/
def Run (env : Env) (opts : Options) : Outcome × List Event :=
  match env.loadResult with
  | Except.error e => (Outcome.returned (some e), [])
  | Except.ok hm =>
    let evalEvents :=
      Event.allocBuffer (opts.Width * opts.Height) ::
        env.sched.map fun c => Event.fieldCall c.1 c.2
    match runCells opts.Width opts.Field (initState opts.Width opts.Height) env.sched with
    | none => (Outcome.panicked, evalEvents)
    | some st =>
      if st.cnt ≠ ((opts.Width * opts.Height : Nat) : Int) then (Outcome.blocked, evalEvents)
      else
        match normalize st.data with
        | none => (Outcome.panicked, evalEvents)
        | some data =>
          match colorMap opts.Width opts.Height hm data with
          | none => (Outcome.panicked, evalEvents ++ [Event.normalizeBuffer])
          | some _ =>
            match env.createResult with
            | some cause =>
              (Outcome.returned (some (createErrorMessage opts.OutputFile cause)),
                evalEvents ++ [Event.normalizeBuffer, Event.createFile opts.OutputFile])
            | none =>
              match env.encodeResult with
              | some cause =>
                (Outcome.returned (some (encodeErrorMessage cause)),
                  evalEvents ++ [Event.normalizeBuffer, Event.createFile opts.OutputFile,
                    Event.encodePNG])
              | none =>
                (Outcome.returned none,
                  evalEvents ++ [Event.normalizeBuffer, Event.createFile opts.OutputFile,
                    Event.encodePNG])

/-- An error text carries an operation and a cause when both occur in it, the
operation first and the cause at its end. -/
def CarriesContext (msg operation cause : String) : Prop :=
  ∃ pre mid : String, msg = pre ++ operation ++ mid ++ cause

/-- Modelled from the spec: a failure of the colour-ramp loader `heatmap.Load`, whose
source is not among the files.  By sections 6 and 7 the loader fails on a bad source
path, corrupt gradient data or an invalid gamma, and every failure is surfaced with
the operation and the underlying cause; the error text of the loader carries both. -/
structure LoadFailure where
  operation : String
  cause : String
  message : String
  carries : CarriesContext message operation cause

/-! ## Lemmas on the grid evaluator -/

theorem wrapInt32_succ (a : Int) : wrapInt32 (wrapInt32 a + 1) = wrapInt32 (a + 1) := by
  unfold wrapInt32
  omega

theorem wrapInt32_of_small (n : Int) (h0 : -2147483648 ≤ n) (h1 : n < 2147483648) :
    wrapInt32 n = n := by
  unfold wrapInt32
  omega

theorem mem_workerCells {workers width height i : Nat} {c : Nat × Nat} :
    c ∈ workerCells workers width height i ↔
      c.1 < width ∧ c.1 % workers = i ∧ c.2 < height := by
  obtain ⟨x, y⟩ := c
  simp only [workerCells, List.mem_flatMap, List.mem_range]
  constructor
  · rintro ⟨a, ha, hmem⟩
    by_cases hm : a % workers = i
    · simp [hm] at hmem
      obtain ⟨hy, rfl⟩ := hmem
      exact ⟨ha, hm, hy⟩
    · simp [hm] at hmem
  · rintro ⟨hx, hm, hy⟩
    exact ⟨x, hx, by simp at hm ⊢; simp [hm, hy]⟩

theorem mem_allWorkerCells {workers width height : Nat} (hW : 1 ≤ workers) {c : Nat × Nat} :
    c ∈ allWorkerCells workers width height ↔ c.1 < width ∧ c.2 < height := by
  simp only [allWorkerCells, List.mem_flatMap, List.mem_range, mem_workerCells]
  constructor
  · rintro ⟨i, _, hx, _, hy⟩
    exact ⟨hx, hy⟩
  · rintro ⟨hx, hy⟩
    exact ⟨c.1 % workers, Nat.mod_lt _ (by omega), hx, rfl, hy⟩

theorem nodup_workerCells (workers width height i : Nat) :
    (workerCells workers width height i).Nodup := by
  unfold workerCells
  rw [List.nodup_flatMap]
  constructor
  · intro x _
    split
    · exact List.nodup_nil
    · exact (List.nodup_range height).map (fun a b h => by simpa using h)
  · refine (List.nodup_range width).pairwise_of_forall_ne ?_
    intro a _ b _ hab
    simp only [Function.onFun]
    intro c hca hcb
    have h1 : c.1 = a := by
      split at hca
      · simp at hca
      · simp only [List.mem_map, List.mem_range] at hca
        obtain ⟨y, _, rfl⟩ := hca
        rfl
    have h2 : c.1 = b := by
      split at hcb
      · simp at hcb
      · simp only [List.mem_map, List.mem_range] at hcb
        obtain ⟨y, _, rfl⟩ := hcb
        rfl
    exact hab (h1.symm.trans h2)

theorem nodup_allWorkerCells (workers width height : Nat) :
    (allWorkerCells workers width height).Nodup := by
  unfold allWorkerCells
  rw [List.nodup_flatMap]
  constructor
  · intro i _
    exact nodup_workerCells workers width height i
  · refine (List.nodup_range workers).pairwise_of_forall_ne ?_
    intro a _ b _ hab
    simp only [Function.onFun]
    intro c hca hcb
    rw [mem_workerCells] at hca hcb
    exact hab (hca.2.1.symm.trans hcb.2.1)

theorem cell_index_lt {width height x y : Nat} (hx : x < width) (hy : y < height) :
    y * width + x < width * height := by
  have h1 : (y + 1) * width ≤ height * width := Nat.mul_le_mul_right width hy
  have h2 : (y + 1) * width = y * width + width := by ring
  have h3 : height * width = width * height := Nat.mul_comm _ _
  omega

theorem cell_index_inj {width x y a b : Nat} (hx : x < width) (ha : a < width)
    (h : y * width + x = b * width + a) : x = a ∧ y = b := by
  have hx' : (y * width + x) % width = x := by
    rw [Nat.add_comm, Nat.add_mul_mod_self_right, Nat.mod_eq_of_lt hx]
  have ha' : (b * width + a) % width = a := by
    rw [Nat.add_comm, Nat.add_mul_mod_self_right, Nat.mod_eq_of_lt ha]
  have hxa : x = a := by rw [← hx', ← ha', h]
  subst hxa
  have hw : 0 < width := by omega
  have h4 : y * width = b * width := by omega
  exact ⟨rfl, Nat.eq_of_mul_eq_mul_right hw h4⟩

theorem length_allWorkerCells {workers : Nat} (hW : 1 ≤ workers) (width height : Nat) :
    (allWorkerCells workers width height).length = width * height := by
  have hp : (allWorkerCells workers width height).Perm
      (List.range width ×ˢ List.range height) := by
    rw [List.perm_ext_iff_of_nodup (nodup_allWorkerCells _ _ _)
      ((List.nodup_range width).product (List.nodup_range height))]
    intro c
    rw [mem_allWorkerCells hW]
    obtain ⟨x, y⟩ := c
    simp [List.mem_product]
  rw [hp.length_eq, List.length_product, List.length_range, List.length_range]

theorem runCells_data (width height : Nat) (field : Nat → Nat → ℚ) :
    ∀ (cs : List (Nat × Nat)) (st : EvalState), st.data.length = width * height →
      (∀ c ∈ cs, c.1 < width ∧ c.2 < height) →
      ∃ st1, runCells width field st cs = some st1 ∧
        st1.data.length = width * height ∧
        ∀ x y, x < width → y < height →
          st1.data[y * width + x]? =
            if (x, y) ∈ cs then some (field x y) else st.data[y * width + x]? := by
  intro cs
  induction cs with
  | nil =>
    intro st hlen _
    exact ⟨st, rfl, hlen, fun x y _ _ => by simp⟩
  | cons c cs ih =>
    intro st hlen hcs
    have hc := hcs c (List.mem_cons_self _ _)
    have hidx : c.2 * width + c.1 < st.data.length := by
      rw [hlen]; exact cell_index_lt hc.1 hc.2
    obtain ⟨st1, hrun, hlen1, hval⟩ :=
      ih { data := st.data.set (c.2 * width + c.1) (field c.1 c.2),
           cnt := wrapInt32 (st.cnt + 1) }
        (by simp [hlen]) (fun d hd => hcs d (List.mem_cons_of_mem _ hd))
    refine ⟨st1, ?_, hlen1, ?_⟩
    · simp only [runCells, evalCell, hidx, if_true]
      exact hrun
    · intro x y hx hy
      rw [hval x y hx hy]
      by_cases hmem : (x, y) ∈ cs
      · simp [hmem]
      · simp only [hmem, if_false, List.mem_cons, or_false]
        by_cases heq : (x, y) = c
        · subst heq
          simp [List.getElem?_set, hidx]
        · have hne : c.2 * width + c.1 ≠ y * width + x := by
            intro h
            obtain ⟨h1, h2⟩ := cell_index_inj hx hc.1 h.symm
            exact heq (Prod.ext h1 h2)
          simp [heq, List.getElem?_set, hne]

theorem runCells_cnt (width : Nat) (field : Nat → Nat → ℚ) :
    ∀ (cs : List (Nat × Nat)) (st st1 : EvalState), runCells width field st cs = some st1 →
      wrapInt32 st1.cnt = wrapInt32 (st.cnt + cs.length) ∧
      (cs ≠ [] → st1.cnt = wrapInt32 (st.cnt + cs.length)) := by
  intro cs
  induction cs with
  | nil =>
    intro st st1 h
    simp only [runCells, Option.some.injEq] at h
    subst h
    simp
  | cons c cs ih =>
    intro st st1 h
    simp only [runCells] at h
    cases hstep : evalCell width field st c with
    | none => simp [hstep] at h
    | some st2 =>
      simp only [hstep] at h
      have hcnt2 : st2.cnt = wrapInt32 (st.cnt + 1) := by
        simp only [evalCell] at hstep
        by_cases hi : c.2 * width + c.1 < st.data.length
        · simp only [hi, if_true, Option.some.injEq] at hstep
          subst hstep
          rfl
        · simp [hi] at hstep
      obtain ⟨h1, h2⟩ := ih st2 st1 h
      have key : wrapInt32 (st2.cnt + cs.length) = wrapInt32 (st.cnt + (c :: cs).length) := by
        rw [hcnt2]
        simp only [List.length_cons, Nat.cast_add, Nat.cast_one]
        unfold wrapInt32
        omega
      refine ⟨h1.trans key, fun _ => ?_⟩
      by_cases hcs : cs = []
      · subst hcs
        simp only [runCells, Option.some.injEq] at h
        subst h
        rw [hcnt2]
        simp
      · rw [h2 hcs, key]

theorem visits_eq_one {cs : List (Nat × Nat)} {c : Nat × Nat} (hn : cs.Nodup) (hc : c ∈ cs) :
    visits cs c = 1 := by
  have h := List.count_eq_one_of_mem hn hc
  simpa [visits, List.count, BEq.beq] using h

theorem runCells_schedule (workers width height : Nat) (field : Nat → Nat → ℚ)
    (hW : 1 ≤ workers) (sched : List (Nat × Nat))
    (hs : IsSchedule workers width height sched) :
    ∃ st, runCells width field (initState width height) sched = some st ∧
      st.data.length = width * height ∧
      (∀ x y, x < width → y < height → st.data[y * width + x]? = some (field x y)) ∧
      wrapInt32 st.cnt = wrapInt32 ((width * height : Nat) : Int) ∧
      (0 < width * height → st.cnt = wrapInt32 ((width * height : Nat) : Int)) := by
  have hmem : ∀ c, c ∈ sched ↔ c.1 < width ∧ c.2 < height := fun c =>
    (hs.mem_iff).trans (mem_allWorkerCells hW)
  have hlen : sched.length = width * height := by
    rw [hs.length_eq, length_allWorkerCells hW]
  obtain ⟨st, hrun, hl, hval⟩ := runCells_data width height field sched
    (initState width height) (by simp [initState]) (fun c hc => (hmem c).1 hc)
  obtain ⟨hc1, hc2⟩ := runCells_cnt width field sched _ st hrun
  refine ⟨st, hrun, hl, ?_, ?_, ?_⟩
  · intro x y hx hy
    rw [hval x y hx hy, if_pos ((hmem (x, y)).2 ⟨hx, hy⟩)]
  · rw [hc1, hlen]
    simp [initState]
  · intro hpos
    have hne : sched ≠ [] := by
      intro h
      rw [h, List.length_nil] at hlen
      omega
    rw [hc2 hne, hlen]
    simp [initState]

/-! ## Lemmas on the normalizer -/

theorem foldl_minMaxStep (rest : List ℚ) :
    ∀ acc : ℚ × ℚ,
      ((rest.foldl minMaxStep acc).1 = acc.1 ∨ (rest.foldl minMaxStep acc).1 ∈ rest) ∧
      acc.1 ≤ (rest.foldl minMaxStep acc).1 ∧
      (∀ v ∈ rest, v ≤ (rest.foldl minMaxStep acc).1) ∧
      ((rest.foldl minMaxStep acc).2 = acc.2 ∨ (rest.foldl minMaxStep acc).2 ∈ rest) ∧
      (rest.foldl minMaxStep acc).2 ≤ acc.2 ∧
      (∀ v ∈ rest, (rest.foldl minMaxStep acc).2 ≤ v) := by
  induction rest with
  | nil =>
    intro acc
    simp
  | cons a rest ih =>
    intro acc
    obtain ⟨h1, h2, h3, h4, h5, h6⟩ := ih (minMaxStep acc a)
    have hmx : (minMaxStep acc a).1 = max acc.1 a := by
      simp only [minMaxStep]
      split
      · rw [max_eq_right (le_of_lt ‹_›)]
      · rw [max_eq_left (not_lt.1 ‹_›)]
    have hmn : (minMaxStep acc a).2 = min acc.2 a := by
      simp only [minMaxStep]
      split
      · rw [min_eq_right (le_of_lt ‹_›)]
      · rw [min_eq_left (not_lt.1 ‹_›)]
    simp only [List.foldl_cons, List.mem_cons, forall_eq_or_imp]
    rw [hmx] at h1 h2
    rw [hmn] at h4 h5
    refine ⟨?_, le_trans (le_max_left _ _) h2, ⟨le_trans (le_max_right _ _) h2, h3⟩,
      ?_, le_trans h5 (min_le_left _ _), ⟨le_trans h5 (min_le_right _ _), h6⟩⟩
    · rcases h1 with h1 | h1
      · rcases max_choice acc.1 a with hc | hc
        · left; rw [h1, hc]
        · right; left; rw [h1, hc]
      · right; right; exact h1
    · rcases h4 with h4 | h4
      · rcases min_choice acc.2 a with hc | hc
        · left; rw [h4, hc]
        · right; left; rw [h4, hc]
      · right; right; exact h4

theorem minMax_spec {data : List ℚ} (hne : data ≠ []) :
    ∃ mx mn, minMax data = some (mx, mn) ∧ mx ∈ data ∧ mn ∈ data ∧
      ∀ v ∈ data, mn ≤ v ∧ v ≤ mx := by
  cases data with
  | nil => exact absurd rfl hne
  | cons d0 rest =>
    obtain ⟨h1, h2, h3, h4, h5, h6⟩ := foldl_minMaxStep rest (d0, d0)
    refine ⟨(rest.foldl minMaxStep (d0, d0)).1, (rest.foldl minMaxStep (d0, d0)).2, rfl,
      ?_, ?_, ?_⟩
    · rcases h1 with h | h
      · rw [h]; exact List.mem_cons_self _ _
      · exact List.mem_cons_of_mem _ h
    · rcases h4 with h | h
      · rw [h]; exact List.mem_cons_self _ _
      · exact List.mem_cons_of_mem _ h
    · intro v hv
      rcases List.mem_cons.1 hv with h | h
      · subst h; exact ⟨h5, h2⟩
      · exact ⟨h6 v h, h3 v h⟩

theorem minMax_unique {data : List ℚ} {mx mn a b : ℚ} (h : minMax data = some (mx, mn))
    (ha : a ∈ data) (hb : b ∈ data) (hlo : ∀ v ∈ data, a ≤ v) (hhi : ∀ v ∈ data, v ≤ b) :
    mx = b ∧ mn = a := by
  have hne : data ≠ [] := List.ne_nil_of_mem ha
  obtain ⟨mx1, mn1, h1, hmx, hmn, hall⟩ := minMax_spec hne
  rw [h] at h1
  simp only [Option.some.injEq, Prod.mk.injEq] at h1
  obtain ⟨rfl, rfl⟩ := h1
  exact ⟨le_antisymm (hhi _ hmx) (hall b hb).2, le_antisymm (hall a ha).1 (hlo _ hmn)⟩

theorem rescaleLoop_upto (f : ℚ → ℚ) (data : List ℚ) :
    ∀ n i : Nat, ((List.range n).foldl (fun d j => d.set j (f (d.getD j 0))) data)[i]? =
      if i < n then data[i]?.map f else data[i]? := by
  intro n
  induction n with
  | zero =>
    intro i
    simp
  | succ n ih =>
    intro i
    rw [List.range_succ, List.foldl_append]
    simp only [List.foldl_cons, List.foldl_nil]
    rw [List.getElem?_set]
    by_cases hni : n = i
    · subst hni
      simp only [if_true, Nat.lt_succ_self]
      have hlen : ∀ m : Nat,
          ((List.range m).foldl (fun d j => d.set j (f (d.getD j 0))) data).length
            = data.length := by
        intro m
        induction m with
        | zero => simp
        | succ m ihm =>
          rw [List.range_succ, List.foldl_append]
          simp only [List.foldl_cons, List.foldl_nil, List.length_set]
          exact ihm
      rw [hlen n, List.getD_eq_getElem?_getD, ih n]
      simp only [lt_irrefl, if_false]
      by_cases hn : n < data.length
      · simp [hn, List.getElem?_eq_getElem hn]
      · simp [hn, List.getElem?_eq_none (not_lt.1 hn)]
    · rw [if_neg hni, ih i]
      by_cases hin : i < n
      · rw [if_pos hin, if_pos (Nat.lt_succ_of_lt hin)]
      · rw [if_neg hin, if_neg (by omega)]

theorem rescaleLoop_eq_map (mn spread : ℚ) (data : List ℚ) :
    rescaleLoop mn spread data = data.map fun v => (v - mn) / spread := by
  apply List.ext_getElem?
  intro i
  unfold rescaleLoop
  rw [rescaleLoop_upto (fun v => (v - mn) / spread) data data.length i, List.getElem?_map]
  by_cases hi : i < data.length
  · simp [hi]
  · simp [hi, List.getElem?_eq_none (not_lt.1 hi)]

theorem normalize_eq {data : List ℚ} {mx mn : ℚ} (h : minMax data = some (mx, mn)) :
    normalize data =
      some (if mx - mn ≥ epsilon then data.map (fun v => (v - mn) / (mx - mn)) else data) := by
  unfold normalize
  rw [h]
  simp only []
  split
  · rw [rescaleLoop_eq_map]
  · rfl

/-! ## Lemmas on the colour mapper -/

theorem rampPos_of_nonneg {pixel : ℚ} {rampLen : Nat} (hL : 1 ≤ rampLen) (h0 : 0 ≤ pixel) :
    rampPos pixel rampLen = ⌊pixel * ((rampLen : ℚ) - 1)⌋ := by
  have hL1 : (0 : ℚ) ≤ (rampLen : ℚ) - 1 := by
    have : (1 : ℚ) ≤ (rampLen : ℚ) := by exact_mod_cast hL
    linarith
  unfold rampPos truncToInt
  push_cast
  rw [if_pos (mul_nonneg h0 hL1)]

theorem rampPos_bounds {pixel : ℚ} {rampLen : Nat} (hL : 1 ≤ rampLen) (h0 : 0 ≤ pixel)
    (h1 : pixel ≤ 1) : 0 ≤ rampPos pixel rampLen ∧ rampPos pixel rampLen < (rampLen : Int) := by
  have hL1 : (0 : ℚ) ≤ (rampLen : ℚ) - 1 := by
    have : (1 : ℚ) ≤ (rampLen : ℚ) := by exact_mod_cast hL
    linarith
  rw [rampPos_of_nonneg hL h0]
  constructor
  · exact Int.floor_nonneg.2 (mul_nonneg h0 hL1)
  · rw [Int.floor_lt]
    push_cast
    have : pixel * ((rampLen : ℚ) - 1) ≤ 1 * ((rampLen : ℚ) - 1) :=
      mul_le_mul_of_nonneg_right h1 hL1
    linarith

theorem rampAt_of_bounds {hm : List Color} {pos : Int} (h0 : 0 ≤ pos)
    (h1 : pos < (hm.length : Int)) :
    ∃ k : Nat, (k : Int) = pos ∧ k < hm.length ∧ rampAt hm pos = hm[k]? := by
  refine ⟨pos.toNat, Int.toNat_of_nonneg h0, ?_, ?_⟩
  · omega
  · unfold rampAt
    rw [if_pos ⟨h0, h1⟩]

theorem mem_colorCells {width height : Nat} {c : Nat × Nat} :
    c ∈ colorCells width height ↔ c.1 < width ∧ c.2 < height := by
  obtain ⟨x, y⟩ := c
  simp [colorCells, List.mem_flatMap, List.mem_range]

theorem paintCells_spec (width height : Nat) (hm : List Color) (data : List ℚ)
    (hd : data.length = width * height)
    (hok : ∀ v ∈ data, ∃ col, rampAt hm (rampPos v hm.length) = some col) :
    ∀ (cs : List (Nat × Nat)) (img : List RGBA), img.length = width * height →
      (∀ c ∈ cs, c.1 < width ∧ c.2 < height) →
      ∃ img1, paintCells width hm data img cs = some img1 ∧
        img1.length = width * height ∧
        ∀ x y, x < width → y < height →
          img1[y * width + x]? =
            if (x, y) ∈ cs then
              data[y * width + x]?.bind fun v =>
                (rampAt hm (rampPos v hm.length)).map pixelOf
            else img[y * width + x]? := by
  intro cs
  induction cs with
  | nil =>
    intro img hlen _
    exact ⟨img, rfl, hlen, fun x y _ _ => by simp⟩
  | cons c cs ih =>
    intro img hlen hcs
    have hc := hcs c (List.mem_cons_self _ _)
    have hidx : c.2 * width + c.1 < data.length := by
      rw [hd]; exact cell_index_lt hc.1 hc.2
    have hget : data[c.2 * width + c.1]? = some data[c.2 * width + c.1] :=
      List.getElem?_eq_getElem hidx
    obtain ⟨col, hcol⟩ := hok _ (List.getElem_mem hidx)
    obtain ⟨img1, hrun, hlen1, hval⟩ :=
      ih (img.set (c.2 * width + c.1) (pixelOf col)) (by simp [hlen])
        (fun d hd => hcs d (List.mem_cons_of_mem _ hd))
    refine ⟨img1, ?_, hlen1, ?_⟩
    · simp only [paintCells, paintCell, hget, hcol]
      exact hrun
    · intro x y hx hy
      rw [hval x y hx hy]
      by_cases hmem : (x, y) ∈ cs
      · simp [hmem]
      · simp only [hmem, if_false, List.mem_cons, or_false]
        by_cases heq : (x, y) = c
        · subst heq
          have hidx2 : y * width + x < img.length := by rw [hlen, ← hd]; exact hidx
          simp only [if_true, hget, Option.some_bind, hcol, Option.map_some]
          simp [List.getElem?_set, hidx2]
        · have hne : c.2 * width + c.1 ≠ y * width + x := by
            intro h
            obtain ⟨h1, h2⟩ := cell_index_inj hx hc.1 h.symm
            exact heq (Prod.ext h1 h2)
          simp [heq, List.getElem?_set, hne]

theorem colorMap_spec (width height : Nat) (hm : List Color) (data : List ℚ)
    (hd : data.length = width * height)
    (hok : ∀ v ∈ data, ∃ col, rampAt hm (rampPos v hm.length) = some col) :
    ∃ img, colorMap width height hm data = some img ∧ img.length = width * height ∧
      ∀ x y, x < width → y < height →
        img[y * width + x]? =
          data[y * width + x]?.bind fun v => (rampAt hm (rampPos v hm.length)).map pixelOf := by
  obtain ⟨img, h1, h2, h3⟩ := paintCells_spec width height hm data hd hok
    (colorCells width height) (List.replicate (width * height) ⟨0, 0, 0, 0⟩) (by simp)
    (fun c hc => mem_colorCells.1 hc)
  refine ⟨img, h1, h2, ?_⟩
  intro x y hx hy
  rw [h3 x y hx hy, if_pos (mem_colorCells.2 ⟨hx, hy⟩)]

theorem buffer_mem_iff {width height : Nat} {field : Nat → Nat → ℚ} {data : List ℚ}
    (hlen : data.length = width * height)
    (hval : ∀ x y, x < width → y < height → data[y * width + x]? = some (field x y)) (v : ℚ) :
    v ∈ data ↔ ∃ x y, x < width ∧ y < height ∧ field x y = v := by
  constructor
  · intro hv
    obtain ⟨n, hn⟩ := List.mem_iff_getElem?.1 hv
    obtain ⟨hlt, _⟩ := List.getElem?_eq_some_iff.1 hn
    rw [hlen] at hlt
    have hw : 0 < width := by
      rcases Nat.eq_zero_or_pos width with h | h
      · rw [h, Nat.zero_mul] at hlt
        omega
      · exact h
    have hx : n % width < width := Nat.mod_lt _ hw
    have hy : n / width < height := by
      rw [Nat.div_lt_iff_lt_mul hw, Nat.mul_comm]
      exact hlt
    have hidx : n / width * width + n % width = n := Nat.div_add_mod' n width
    have := hval (n % width) (n / width) hx hy
    rw [hidx, hn] at this
    exact ⟨n % width, n / width, hx, hy, (Option.some.inj this).symm⟩
  · rintro ⟨x, y, hx, hy, rfl⟩
    exact List.mem_iff_getElem?.2 ⟨_, hval x y hx hy⟩

/-! ## Lemmas on the pipeline -/

theorem renderWith_pixels (workers width height : Nat) (field : Nat → Nat → ℚ)
    (hm : List Color) (sched : List (Nat × Nat)) (mx mn : ℚ)
    (hW : 1 ≤ workers) (hL : 1 ≤ hm.length) (hs : IsSchedule workers width height sched)
    (hmn : ∃ x y, x < width ∧ y < height ∧ field x y = mn)
    (hmx : ∃ x y, x < width ∧ y < height ∧ field x y = mx)
    (hlo : ∀ x y, x < width → y < height → mn ≤ field x y)
    (hhi : ∀ x y, x < width → y < height → field x y ≤ mx)
    (hspread : mx - mn ≥ epsilon) :
    ∃ img, renderWith sched width height field hm = some img ∧
      img.length = width * height ∧
      ∀ x y, x < width → y < height →
        ∃ k : Nat, (k : Int) = ⌊(field x y - mn) / (mx - mn) * ((hm.length : ℚ) - 1)⌋ ∧
          k < hm.length ∧ img[y * width + x]? = hm[k]?.map pixelOf := by
  obtain ⟨st, hrun, hlen, hval, _⟩ := runCells_schedule workers width height field hW sched hs
  have hmem := buffer_mem_iff hlen hval
  have heps : (0 : ℚ) < epsilon := by norm_num [epsilon]
  have hpos : 0 < mx - mn := lt_of_lt_of_le heps hspread
  have hmn1 : mn ∈ st.data := (hmem mn).2 hmn
  have hmx1 : mx ∈ st.data := (hmem mx).2 hmx
  have hlo1 : ∀ v ∈ st.data, mn ≤ v := by
    intro v hv
    obtain ⟨x, y, hx, hy, rfl⟩ := (hmem v).1 hv
    exact hlo x y hx hy
  have hhi1 : ∀ v ∈ st.data, v ≤ mx := by
    intro v hv
    obtain ⟨x, y, hx, hy, rfl⟩ := (hmem v).1 hv
    exact hhi x y hx hy
  obtain ⟨a, b, hab, _, _, _⟩ := minMax_spec (List.ne_nil_of_mem hmn1)
  obtain ⟨rfl, rfl⟩ := minMax_unique hab hmn1 hmx1 hlo1 hhi1
  have hnorm : normalize st.data = some (st.data.map fun v => (v - b) / (a - b)) := by
    rw [normalize_eq hab, if_pos hspread]
  have hunit : ∀ u ∈ st.data, 0 ≤ (u - b) / (a - b) ∧ (u - b) / (a - b) ≤ 1 := by
    intro u hu
    constructor
    · exact div_nonneg (by linarith [hlo1 u hu]) (le_of_lt hpos)
    · rw [div_le_one hpos]
      linarith [hhi1 u hu]
  have hok : ∀ v ∈ st.data.map (fun v => (v - b) / (a - b)),
      ∃ col, rampAt hm (rampPos v hm.length) = some col := by
    intro v hv
    obtain ⟨u, hu, rfl⟩ := List.mem_map.1 hv
    obtain ⟨h0, h1⟩ := hunit u hu
    obtain ⟨hp0, hp1⟩ := rampPos_bounds hL h0 h1
    obtain ⟨k, _, hk, hat⟩ := rampAt_of_bounds hp0 hp1
    exact ⟨hm[k], by rw [hat, List.getElem?_eq_getElem hk]⟩
  obtain ⟨img, himg, hilen, hpix⟩ := colorMap_spec width height hm
    (st.data.map fun v => (v - b) / (a - b)) (by simp [hlen]) hok
  refine ⟨img, ?_, hilen, ?_⟩
  · simp only [renderWith, hrun, hnorm]
    exact himg
  · intro x y hx hy
    have hu : field x y ∈ st.data := (hmem _).2 ⟨x, y, hx, hy, rfl⟩
    obtain ⟨h0, h1⟩ := hunit _ hu
    obtain ⟨hp0, hp1⟩ := rampPos_bounds hL h0 h1
    obtain ⟨k, hkeq, hk, hat⟩ := rampAt_of_bounds hp0 hp1
    refine ⟨k, ?_, hk, ?_⟩
    · rw [hkeq, rampPos_of_nonneg hL h0]
    · rw [hpix x y hx hy, List.getElem?_map, hval x y hx hy]
      simp [hat]

/-! ## Grid evaluator: main results -/

/-- C1: for width > 0, height > 0, a worker count of at least 1 and any field, under
every schedule of the stripe workers the evaluation finishes with a buffer of exactly
`width*height` entries whose entry `y*width + x` is `field x y` for every cell. -/
theorem run_buffer_populated (workers width height : Nat) (field : Nat → Nat → ℚ)
    (_hw : 0 < width) (_hh : 0 < height) (hW : 1 ≤ workers) (sched : List (Nat × Nat))
    (hs : IsSchedule workers width height sched) :
    ∃ st, runCells width field (initState width height) sched = some st ∧
      st.data.length = width * height ∧
      ∀ x y, x < width → y < height → st.data[y * width + x]? = some (field x y) := by
  obtain ⟨st, h1, h2, h3, _⟩ := runCells_schedule workers width height field hW sched hs
  exact ⟨st, h1, h2, h3⟩

/-- Instance of C1: two workers on a 2x1 grid with field `(x, y) ↦ x`. -/
theorem run_buffer_populated_witness :
    0 < 2 ∧ 0 < 1 ∧ 1 ≤ 2 ∧ IsSchedule 2 2 1 [(1, 0), (0, 0)] ∧
    ∃ st, runCells 2 (fun x _ => (x : ℚ)) (initState 2 1) [(1, 0), (0, 0)] = some st ∧
      st.data.length = 2 * 1 ∧
      ∀ x y : Nat, x < 2 → y < 1 → st.data[y * 2 + x]? = some (x : ℚ) :=
  ⟨by decide, by decide, by decide, by decide,
    run_buffer_populated 2 2 1 (fun x _ => (x : ℚ)) (by decide) (by decide) (by decide)
      [(1, 0), (0, 0)] (by decide)⟩

/-- C8: for a worker count of at least 1 and any width, the column test `x % W == i`
gives each column `x < width` to exactly one worker `i < W`, namely `x % W`, and the
columns of all the workers together are exactly the columns below `width`. -/
theorem column_partition (workers width : Nat) (hW : 1 ≤ workers) :
    (∀ x, x < width → ∃! i, i < workers ∧ x ∈ workerColumns workers width i) ∧
    (∀ x, x < width → x % workers < workers ∧ x ∈ workerColumns workers width (x % workers)) ∧
    (∀ x i, x ∈ workerColumns workers width i → x < width ∧ i = x % workers) ∧
    (∀ x, (∃ i, i < workers ∧ x ∈ workerColumns workers width i) ↔ x < width) := by
  have hmem : ∀ x i, x ∈ workerColumns workers width i ↔ x < width ∧ x % workers = i := by
    intro x i
    simp [workerColumns, List.mem_filter]
  have hlt : ∀ x, x % workers < workers := fun x => Nat.mod_lt _ (by omega)
  refine ⟨?_, ?_, ?_, ?_⟩
  · intro x hx
    refine ⟨x % workers, ⟨hlt x, (hmem _ _).2 ⟨hx, rfl⟩⟩, ?_⟩
    rintro i ⟨_, hi⟩
    exact ((hmem _ _).1 hi).2.symm
  · intro x hx
    exact ⟨hlt x, (hmem _ _).2 ⟨hx, rfl⟩⟩
  · intro x i hi
    exact ⟨((hmem _ _).1 hi).1, ((hmem _ _).1 hi).2.symm⟩
  · intro x
    constructor
    · rintro ⟨i, _, hi⟩
      exact ((hmem _ _).1 hi).1
    · intro hx
      exact ⟨x % workers, hlt x, (hmem _ _).2 ⟨hx, rfl⟩⟩

/-- Instance of C8: three workers on five columns. -/
theorem column_partition_witness :
    1 ≤ 3 ∧
    ((∀ x, x < 5 → ∃! i, i < 3 ∧ x ∈ workerColumns 3 5 i) ∧
    (∀ x, x < 5 → x % 3 < 3 ∧ x ∈ workerColumns 3 5 (x % 3)) ∧
    (∀ x i, x ∈ workerColumns 3 5 i → x < 5 ∧ i = x % 3) ∧
    (∀ x, (∃ i, i < 3 ∧ x ∈ workerColumns 3 5 i) ↔ x < 5)) :=
  ⟨by decide, column_partition 3 5 (by decide)⟩

/-- C9, evaluated at a grid of 65536 x 32768 = 2^31 cells: for any positive worker
count and any field the workers finish, every cell is visited exactly once, but the
`int32` counter has wrapped to -2^31, differs from `width*height`, and a reporter
poll that observes it does not terminate the reporter. -/
theorem counter_wraps_on_large_grid (workers : Nat) (field : Nat → Nat → ℚ) :
    ∃ st, evaluate (workers + 1) 65536 32768 field = some st ∧
      (∀ x y, x < 65536 → y < 32768 →
        visits (allWorkerCells (workers + 1) 65536 32768) (x, y) = 1) ∧
      st.cnt = -2147483648 ∧
      st.cnt ≠ ((65536 * 32768 : Nat) : Int) ∧
      (reporterPoll ((65536 * 32768 : Nat) : Int) reporterInit st.cnt).done = false := by
  obtain ⟨st, h1, _, _, _, h5⟩ := runCells_schedule (workers + 1) 65536 32768 field
    (by omega) (allWorkerCells (workers + 1) 65536 32768) (List.Perm.refl _)
  have hcnt : st.cnt = -2147483648 := by
    rw [h5 (by norm_num)]
    decide
  refine ⟨st, h1, ?_, hcnt, ?_, ?_⟩
  · intro x y hx hy
    have hin : (x, y) ∈ allWorkerCells (workers + 1) 65536 32768 :=
      (mem_allWorkerCells (Nat.succ_le_succ (Nat.zero_le workers))).2 ⟨hx, hy⟩
    exact visits_eq_one (nodup_allWorkerCells _ _ _) hin
  · rw [hcnt]
    decide
  · rw [hcnt]
    decide!

/-! ## Normalizer: main results -/

/-- C2: for every non-empty buffer the single pass finds its least element `mn` and
its greatest element `mx`; if `mx - mn >= 1e-8` the normalization step replaces every
entry `v` by `(v - mn)/(mx - mn)`, and otherwise it leaves the buffer exactly as it was. -/
theorem normalize_contract (data : List ℚ) (hne : data ≠ []) :
    ∃ mx mn, minMax data = some (mx, mn) ∧
      mn ∈ data ∧ (∀ v ∈ data, mn ≤ v) ∧ mx ∈ data ∧ (∀ v ∈ data, v ≤ mx) ∧
      (mx - mn ≥ epsilon →
        normalize data = some (data.map fun v => (v - mn) / (mx - mn))) ∧
      (¬ mx - mn ≥ epsilon → normalize data = some data) := by
  obtain ⟨mx, mn, h, hmx, hmn, hall⟩ := minMax_spec hne
  refine ⟨mx, mn, h, hmn, fun v hv => (hall v hv).1, hmx, fun v hv => (hall v hv).2, ?_, ?_⟩
  · intro hs
    rw [normalize_eq h, if_pos hs]
  · intro hs
    rw [normalize_eq h, if_neg hs]

/-- Instance of C2: the buffer `[3, 1, 2]`. -/
theorem normalize_contract_witness :
    ([3, 1, 2] : List ℚ) ≠ [] ∧
    ∃ mx mn, minMax [3, 1, 2] = some (mx, mn) ∧
      mn ∈ ([3, 1, 2] : List ℚ) ∧ (∀ v ∈ ([3, 1, 2] : List ℚ), mn ≤ v) ∧
      mx ∈ ([3, 1, 2] : List ℚ) ∧ (∀ v ∈ ([3, 1, 2] : List ℚ), v ≤ mx) ∧
      (mx - mn ≥ epsilon →
        normalize [3, 1, 2] = some (([3, 1, 2] : List ℚ).map fun v => (v - mn) / (mx - mn))) ∧
      (¬ mx - mn ≥ epsilon → normalize [3, 1, 2] = some [3, 1, 2]) :=
  ⟨by simp, normalize_contract [3, 1, 2] (by simp)⟩

/-- C3: for a buffer whose greatest entry `mx` exceeds its least entry `mn` by more
than 1e-8, the normalization step yields a buffer whose least entry is 0 and whose
greatest entry is 1 (as found again by the min/max pass), so every entry is in [0,1]. -/
theorem normalize_range (data : List ℚ) (mx mn : ℚ) (hmn : mn ∈ data) (hmx : mx ∈ data)
    (hlo : ∀ v ∈ data, mn ≤ v) (hhi : ∀ v ∈ data, v ≤ mx) (hgap : mn + epsilon < mx) :
    ∃ out, normalize data = some out ∧ minMax out = some (1, 0) ∧
      (0 : ℚ) ∈ out ∧ (1 : ℚ) ∈ out ∧ ∀ v ∈ out, 0 ≤ v ∧ v ≤ 1 := by
  have hne : data ≠ [] := List.ne_nil_of_mem hmn
  have heps : (0 : ℚ) < epsilon := by norm_num [epsilon]
  have hpos : 0 < mx - mn := by linarith
  obtain ⟨mx1, mn1, h, _, _, _⟩ := minMax_spec hne
  obtain ⟨rfl, rfl⟩ := minMax_unique h hmn hmx hlo hhi
  have hs : mx1 - mn1 ≥ epsilon := by linarith
  have hzero : (0 : ℚ) ∈ data.map fun v => (v - mn1) / (mx1 - mn1) :=
    List.mem_map.2 ⟨mn1, hmn, by simp⟩
  have hone : (1 : ℚ) ∈ data.map fun v => (v - mn1) / (mx1 - mn1) :=
    List.mem_map.2 ⟨mx1, hmx, div_self (ne_of_gt hpos)⟩
  have hrange : ∀ v ∈ data.map (fun v => (v - mn1) / (mx1 - mn1)), 0 ≤ v ∧ v ≤ 1 := by
    intro v hv
    obtain ⟨u, hu, rfl⟩ := List.mem_map.1 hv
    constructor
    · exact div_nonneg (by linarith [hlo u hu]) (le_of_lt hpos)
    · rw [div_le_one hpos]
      linarith [hhi u hu]
  refine ⟨_, by rw [normalize_eq h, if_pos hs], ?_, hzero, hone, hrange⟩
  obtain ⟨a, b, hab, _, _, _⟩ := minMax_spec (List.ne_nil_of_mem hzero)
  obtain ⟨rfl, rfl⟩ := minMax_unique hab hzero hone (fun v hv => (hrange v hv).1)
    (fun v hv => (hrange v hv).2)
  exact hab

/-- Instance of C3: the buffer `[3, 1, 2]` with least entry 1 and greatest entry 3. -/
theorem normalize_range_witness :
    (1 : ℚ) ∈ ([3, 1, 2] : List ℚ) ∧ (3 : ℚ) ∈ ([3, 1, 2] : List ℚ) ∧
    (∀ v ∈ ([3, 1, 2] : List ℚ), 1 ≤ v) ∧ (∀ v ∈ ([3, 1, 2] : List ℚ), v ≤ 3) ∧
    (1 : ℚ) + epsilon < 3 ∧
    ∃ out, normalize [3, 1, 2] = some out ∧ minMax out = some (1, 0) ∧
      (0 : ℚ) ∈ out ∧ (1 : ℚ) ∈ out ∧ ∀ v ∈ out, 0 ≤ v ∧ v ≤ 1 :=
  ⟨by simp, by simp, by simp, by simp; norm_num, by norm_num [epsilon],
    normalize_range [3, 1, 2] 3 1 (by simp) (by simp) (by simp) (by simp; norm_num)
      (by norm_num [epsilon])⟩

/-! ## Colour mapper: main results -/

/-- C4: for width > 0, height > 0, a ramp of length L >= 1 and a field whose least
value `mn` and greatest value `mx` over the grid satisfy `mx - mn >= 1e-8`, under
every schedule the pipeline yields an image whose pixel at (x, y) is the stored form
of the ramp entry at index `floor(p * (L - 1))` with `p = (field x y - mn)/(mx - mn)`,
with no blending and no transposition; and for width 2, height 1, field `(x, y) ↦ x`
and ramp [black, white] the pixels are [black, white]. -/
theorem color_mapping_contract :
    (∀ (workers width height : Nat) (field : Nat → Nat → ℚ) (hm : List Color)
      (sched : List (Nat × Nat)) (mx mn : ℚ),
      0 < width → 0 < height → 1 ≤ workers → 1 ≤ hm.length →
      IsSchedule workers width height sched →
      (∃ x y, x < width ∧ y < height ∧ field x y = mn) →
      (∃ x y, x < width ∧ y < height ∧ field x y = mx) →
      (∀ x y, x < width → y < height → mn ≤ field x y) →
      (∀ x y, x < width → y < height → field x y ≤ mx) →
      mx - mn ≥ epsilon →
      ∃ img, renderWith sched width height field hm = some img ∧
        img.length = width * height ∧
        ∀ x y, x < width → y < height →
          ∃ k : Nat, (k : Int) = ⌊(field x y - mn) / (mx - mn) * ((hm.length : ℚ) - 1)⌋ ∧
            k < hm.length ∧ img[y * width + x]? = hm[k]?.map pixelOf) ∧
    (∀ workers : Nat, 1 ≤ workers →
      render workers 2 1 (fun x _ => (x : ℚ)) [black, white]
        = some [pixelOf black, pixelOf white]) := by
  constructor
  · intro workers width height field hm sched mx mn _ _ hW hL hs hmn hmx hlo hhi hsp
    exact renderWith_pixels workers width height field hm sched mx mn hW hL hs hmn hmx hlo
      hhi hsp
  · intro workers hW
    obtain ⟨img, himg, hlen, hpix⟩ := renderWith_pixels workers 2 1 (fun x _ => (x : ℚ))
      [black, white] (allWorkerCells workers 2 1) 1 0 hW (by simp) (List.Perm.refl _)
      ⟨0, 0, by norm_num⟩ ⟨1, 0, by norm_num⟩
      (fun x y _ _ => by positivity)
      (fun x y hx _ => by
        have : x ≤ 1 := by omega
        show (x : ℚ) ≤ 1
        exact_mod_cast this)
      (by norm_num [epsilon])
    unfold render
    rw [himg]
    congr 1
    apply List.ext_getElem?
    intro n
    rcases n with _ | _ | n
    · obtain ⟨k, hk, _, hp⟩ := hpix 0 0 (by norm_num) (by norm_num)
      have hk0 : k = 0 := by
        have : (k : Int) = 0 := by rw [hk]; norm_num
        exact_mod_cast this
      subst hk0
      simpa using hp
    · obtain ⟨k, hk, _, hp⟩ := hpix 1 0 (by norm_num) (by norm_num)
      have hk1 : k = 1 := by
        have : (k : Int) = 1 := by rw [hk]; norm_num
        exact_mod_cast this
      subst hk1
      simpa using hp
    · have h1 : img[n + 1 + 1]? = none := List.getElem?_eq_none (by omega)
      rw [h1]
      rfl

/-- Instance of C4: one worker on the 2x1 grid with field `(x, y) ↦ x` and ramp
[black, white]; the least field value is 0 and the greatest is 1. -/
theorem color_mapping_contract_witness :
    0 < 2 ∧ 0 < 1 ∧ 1 ≤ 1 ∧ 1 ≤ [black, white].length ∧
    IsSchedule 1 2 1 [(0, 0), (1, 0)] ∧
    (∃ x y, x < 2 ∧ y < 1 ∧ (fun (x : Nat) (_ : Nat) => (x : ℚ)) x y = 0) ∧
    (∃ x y, x < 2 ∧ y < 1 ∧ (fun (x : Nat) (_ : Nat) => (x : ℚ)) x y = 1) ∧
    (1 : ℚ) - 0 ≥ epsilon ∧
    ∃ img, renderWith [(0, 0), (1, 0)] 2 1 (fun x _ => (x : ℚ)) [black, white] = some img ∧
      img.length = 2 * 1 ∧
      ∀ x y : Nat, x < 2 → y < 1 →
        ∃ k : Nat, (k : Int) =
            ⌊((x : ℚ) - 0) / (1 - 0) * ((([black, white] : List Color).length : ℚ) - 1)⌋ ∧
          k < [black, white].length ∧ img[y * 2 + x]? = [black, white][k]?.map pixelOf :=
  ⟨by decide, by decide, by decide, by decide, by decide,
    ⟨0, 0, by norm_num⟩, ⟨1, 0, by norm_num⟩, by norm_num [epsilon],
    color_mapping_contract.1 1 2 1 (fun x _ => (x : ℚ)) [black, white] [(0, 0), (1, 0)] 1 0
      (by decide) (by decide) (by decide) (by decide) (by decide)
      ⟨0, 0, by norm_num⟩ ⟨1, 0, by norm_num⟩
      (fun x y _ _ => by positivity)
      (fun x y hx _ => by
        have : x ≤ 1 := by omega
        show (x : ℚ) ≤ 1
        exact_mod_cast this)
      (by norm_num [epsilon])⟩

/-- C5, evaluated at width 3, height 1, the constant field 5 and ramp
[red, green, blue]: for any positive worker count the buffer is left as [5, 5, 5], the
ramp index is `int(5 * 2) = 10`, the lookup is out of range and no image is produced. -/
theorem constant_field_aborts (workers : Nat) :
    ∃ st, evaluate (workers + 1) 3 1 (fun _ _ => 5) = some st ∧
      normalize st.data = some [5, 5, 5] ∧
      rampPos 5 [red, green, blue].length = 10 ∧
      rampAt [red, green, blue] 10 = none ∧
      render (workers + 1) 3 1 (fun _ _ => 5) [red, green, blue] = none := by
  obtain ⟨st, hrun, hlen, hval, _⟩ := runCells_schedule (workers + 1) 3 1 (fun _ _ => (5 : ℚ))
    (Nat.succ_le_succ (Nat.zero_le workers)) (allWorkerCells (workers + 1) 3 1)
    (List.Perm.refl _)
  have hdata : st.data = [5, 5, 5] := by
    apply List.ext_getElem?
    intro n
    rcases n with _ | _ | _ | n
    · simpa using hval 0 0 (by norm_num) (by norm_num)
    · simpa using hval 1 0 (by norm_num) (by norm_num)
    · simpa using hval 2 0 (by norm_num) (by norm_num)
    · have h1 : st.data[n + 1 + 1 + 1]? = none := List.getElem?_eq_none (by omega)
      rw [h1]
      rfl
  have hnorm : normalize ([5, 5, 5] : List ℚ) = some [5, 5, 5] := by decide!
  have hmap : colorMap 3 1 [red, green, blue] [5, 5, 5] = none := by decide!
  refine ⟨st, hrun, by rw [hdata, hnorm], by decide!, by decide!, ?_⟩
  simp only [render, renderWith]
  have hrun1 : runCells 3 (fun _ _ => (5 : ℚ)) (initState 3 1)
      (allWorkerCells (workers + 1) 3 1) = some st := hrun
  rw [hrun1]
  simp only [hdata, hnorm, hmap]

/-- C6, evaluated at width 2, height 1, the constant field -1 and the ramp
[black, white]: the buffer reaches the colour mapper unchanged as [-1, -1], the ramp
index is `int(-1 * 1) = -1`, nothing clamps it into [0, 1], the lookup is out of
range and no image is produced. -/
theorem ramp_index_not_clamped :
    normalize [-1, -1] = some [-1, -1] ∧
    rampPos (-1) [black, white].length = -1 ∧
    ¬ (0 ≤ rampPos (-1) [black, white].length ∧
        rampPos (-1) [black, white].length ≤ ([black, white].length : Int) - 1) ∧
    rampAt [black, white] (rampPos (-1) [black, white].length) = none ∧
    colorMap 2 1 [black, white] [-1, -1] = none ∧
    render 1 2 1 (fun _ _ => -1) [black, white] = none := by
  decide!

/-- For a ramp of length L >= 1 and a non-empty buffer with spread at least 1e-8,
every value `p` of the rescaled buffer gets a ramp index `int(p * (L - 1))` in
[0, L-1], and the lookup succeeds. -/
theorem ramp_index_in_bounds_after_rescale (hm : List Color) (data : List ℚ) (mx mn : ℚ)
    (hL : 1 ≤ hm.length) (h : minMax data = some (mx, mn)) (hs : mx - mn ≥ epsilon) :
    ∃ out, normalize data = some out ∧
      ∀ p ∈ out, 0 ≤ rampPos p hm.length ∧ rampPos p hm.length ≤ (hm.length : Int) - 1 ∧
        rampPos p hm.length = ⌊p * ((hm.length : ℚ) - 1)⌋ ∧
        ∃ col, rampAt hm (rampPos p hm.length) = some col := by
  have hne : data ≠ [] := by
    intro h0
    rw [h0] at h
    simp [minMax] at h
  obtain ⟨mx1, mn1, h1, hmx, hmn, hall⟩ := minMax_spec hne
  rw [h] at h1
  simp only [Option.some.injEq, Prod.mk.injEq] at h1
  obtain ⟨rfl, rfl⟩ := h1
  have heps : (0 : ℚ) < epsilon := by norm_num [epsilon]
  have hpos : 0 < mx - mn := lt_of_lt_of_le heps hs
  refine ⟨_, by rw [normalize_eq h, if_pos hs], ?_⟩
  intro p hp
  obtain ⟨u, hu, rfl⟩ := List.mem_map.1 hp
  have h0 : 0 ≤ (u - mn) / (mx - mn) :=
    div_nonneg (by linarith [(hall u hu).1]) (le_of_lt hpos)
  have h1 : (u - mn) / (mx - mn) ≤ 1 := by
    rw [div_le_one hpos]
    linarith [(hall u hu).2]
  obtain ⟨hp0, hp1⟩ := rampPos_bounds hL h0 h1
  obtain ⟨k, _, hk, hat⟩ := rampAt_of_bounds hp0 hp1
  exact ⟨hp0, by omega, rampPos_of_nonneg hL h0,
    hm[k], by rw [hat, List.getElem?_eq_getElem hk]⟩

/-- The index bound after rescaling, on the buffer `[3, 1, 2]` and the ramp [black, white]. -/
theorem ramp_index_in_bounds_after_rescale_witness :
    1 ≤ [black, white].length ∧ minMax [3, 1, 2] = some (3, 1) ∧ (3 : ℚ) - 1 ≥ epsilon ∧
    ∃ out, normalize [3, 1, 2] = some out ∧
      ∀ p ∈ out, 0 ≤ rampPos p [black, white].length ∧
        rampPos p [black, white].length ≤ ([black, white].length : Int) - 1 ∧
        rampPos p [black, white].length = ⌊p * (([black, white].length : ℚ) - 1)⌋ ∧
        ∃ col, rampAt [black, white] (rampPos p [black, white].length) = some col :=
  ⟨by decide, by decide!, by norm_num [epsilon],
    ramp_index_in_bounds_after_rescale [black, white] [3, 1, 2] 3 1 (by decide) (by decide!)
      (by norm_num [epsilon])⟩

/-- C7: for a ramp of length L >= 1, a rescaled value exactly equal to 1 gets the ramp
index L - 1, which is a valid index of the ramp: the lookup returns its last entry. -/
theorem ramp_index_at_one (hm : List Color) (hL : 1 ≤ hm.length) :
    rampPos 1 hm.length = (hm.length : Int) - 1 ∧
    0 ≤ rampPos 1 hm.length ∧ rampPos 1 hm.length < (hm.length : Int) ∧
    ∃ col, hm[hm.length - 1]? = some col ∧ rampAt hm (rampPos 1 hm.length) = some col := by
  have hpos : rampPos 1 hm.length = (hm.length : Int) - 1 := by
    rw [rampPos_of_nonneg hL (by norm_num), one_mul]
    have : ((hm.length : ℚ) - 1) = (((hm.length : Int) - 1 : Int) : ℚ) := by push_cast; ring
    rw [this, Int.floor_intCast]
  have hlt : hm.length - 1 < hm.length := by omega
  refine ⟨hpos, by rw [hpos]; omega, by rw [hpos]; omega, hm[hm.length - 1],
    List.getElem?_eq_getElem hlt, ?_⟩
  unfold rampAt
  rw [hpos, if_pos ⟨by omega, by omega⟩]
  have : ((hm.length : Int) - 1).toNat = hm.length - 1 := by omega
  rw [this, List.getElem?_eq_getElem hlt]

/-- Instance of C7: the ramp [red, green, blue], whose last index is 2. -/
theorem ramp_index_at_one_witness :
    1 ≤ [red, green, blue].length ∧
    rampPos 1 [red, green, blue].length = ([red, green, blue].length : Int) - 1 ∧
    0 ≤ rampPos 1 [red, green, blue].length ∧
    rampPos 1 [red, green, blue].length < ([red, green, blue].length : Int) ∧
    ∃ col, [red, green, blue][[red, green, blue].length - 1]? = some col ∧
      rampAt [red, green, blue] (rampPos 1 [red, green, blue].length) = some col :=
  ⟨by decide, ramp_index_at_one [red, green, blue] (by decide)⟩

/-! ## Progress reporter: main results -/

/-- C10, evaluated on a 2x2 grid (total 4) with two consecutive polls that both
observe the count 1: the reporter prints the status line for 25 percent at both
polls, because `nextMark` becomes `ceil 25 = 25` and the second poll still has
`progress >= nextMark`; the two lines report the same integer part. -/
theorem reporter_repeats_status_line :
    (reporterRun 4 [1]).out = [Output.status 25] ∧
    (reporterRun 4 [1]).nextMark = 25 ∧
    (reporterRun 4 [1, 1]).out = [Output.status 25, Output.status 25] ∧
    (statusValues (reporterRun 4 [1, 1]).out).map Int.floor = [25, 25] := by
  decide!

theorem reporterPoll_of_done (total : Int) (s : ReporterState) (c : Int)
    (h : s.done = true) : reporterPoll total s c = s := by
  simp [reporterPoll, h]

theorem foldl_reporterPoll_of_done (total : Int) (post : List Int) :
    ∀ s : ReporterState, s.done = true → post.foldl (reporterPoll total) s = s := by
  induction post with
  | nil =>
    intro s _
    rfl
  | cons c post ih =>
    intro s h
    rw [List.foldl_cons, reporterPoll_of_done total s c h]
    exact ih s h

theorem reporterPoll_running (total : Int) (s : ReporterState) (c : Int)
    (hd : s.done = false) (hc : c ≠ total) (hout : Output.complete ∉ s.out) :
    (reporterPoll total s c).done = false ∧ Output.complete ∉ (reporterPoll total s c).out := by
  unfold reporterPoll
  simp only [hd, hc, if_false, Bool.false_eq_true]
  split
  · exact ⟨rfl, by simp [hout]⟩
  · exact ⟨hd, hout⟩

theorem foldl_reporterPoll_running (total : Int) (pre : List Int) :
    ∀ s : ReporterState, s.done = false → Output.complete ∉ s.out →
      (∀ c ∈ pre, c ≠ total) →
      (pre.foldl (reporterPoll total) s).done = false ∧
        Output.complete ∉ (pre.foldl (reporterPoll total) s).out := by
  induction pre with
  | nil =>
    intro s hd hout _
    exact ⟨hd, hout⟩
  | cons c pre ih =>
    intro s hd hout hpre
    rw [List.foldl_cons]
    obtain ⟨h1, h2⟩ := reporterPoll_running total s c hd
      (hpre c (List.mem_cons_self _ _)) hout
    exact ih _ h1 h2 (fun d hd2 => hpre d (List.mem_cons_of_mem _ hd2))

/-- C11: in the step model of the reporter, for `total = width*height > 0` and polls
that first observe counts below `total` and then `total`: no poll before that one
prints the complete message or stops the reporter; the poll observing `total` appends
the complete message and signals termination; later polls change nothing, so the
complete message is printed exactly once and is the last line printed. -/
theorem reporter_completes_once (total : Int) (pre post : List Int) (_hpos : 0 < total)
    (hpre : ∀ c ∈ pre, c < total) :
    (reporterRun total pre).done = false ∧
    Output.complete ∉ (reporterRun total pre).out ∧
    (reporterRun total (pre ++ [total])).out
      = (reporterRun total pre).out ++ [Output.complete] ∧
    (reporterRun total (pre ++ [total])).done = true ∧
    reporterRun total (pre ++ total :: post) = reporterRun total (pre ++ [total]) ∧
    (reporterRun total (pre ++ total :: post)).out.count Output.complete = 1 ∧
    (reporterRun total (pre ++ total :: post)).out.getLast? = some Output.complete := by
  obtain ⟨hd, hout⟩ := foldl_reporterPoll_running total pre reporterInit rfl
    (by simp [reporterInit]) (fun c hc => ne_of_lt (hpre c hc))
  have hstep : reporterRun total (pre ++ [total]) =
      { reporterRun total pre with
        out := (reporterRun total pre).out ++ [Output.complete], done := true } := by
    have hd1 : (List.foldl (reporterPoll total) reporterInit pre).done = false := hd
    simp only [reporterRun, List.foldl_append, List.foldl_cons, List.foldl_nil,
      reporterPoll, hd1, if_true, Bool.false_eq_true, if_false]
  have hall : reporterRun total (pre ++ total :: post) = reporterRun total (pre ++ [total]) := by
    have h1 : pre ++ total :: post = (pre ++ [total]) ++ post := by simp
    rw [h1]
    unfold reporterRun
    rw [List.foldl_append]
    apply foldl_reporterPoll_of_done
    have := congrArg ReporterState.done hstep
    exact this
  have hcount : (reporterRun total pre).out.count Output.complete = 0 :=
    List.count_eq_zero.2 hout
  refine ⟨hd, hout, by rw [hstep], by rw [hstep], hall, ?_, ?_⟩
  · rw [hall, hstep]
    simp [List.count_append, hcount]
  · rw [hall, hstep]
    simp

/-- Instance of C11: a 2x2 grid with polls observing 0, 1, 3, then 4, then 4 again. -/
theorem reporter_completes_once_witness :
    (0 : Int) < 4 ∧ (∀ c ∈ ([0, 1, 3] : List Int), c < 4) ∧
    ((reporterRun 4 [0, 1, 3]).done = false ∧
    Output.complete ∉ (reporterRun 4 [0, 1, 3]).out ∧
    (reporterRun 4 ([0, 1, 3] ++ [4])).out
      = (reporterRun 4 [0, 1, 3]).out ++ [Output.complete] ∧
    (reporterRun 4 ([0, 1, 3] ++ [4])).done = true ∧
    reporterRun 4 ([0, 1, 3] ++ 4 :: [4]) = reporterRun 4 ([0, 1, 3] ++ [4]) ∧
    (reporterRun 4 ([0, 1, 3] ++ 4 :: [4])).out.count Output.complete = 1 ∧
    (reporterRun 4 ([0, 1, 3] ++ 4 :: [4])).out.getLast? = some Output.complete) :=
  ⟨by decide, by decide, reporter_completes_once 4 [0, 1, 3] [4] (by decide) (by decide)⟩

/-! ## The whole of Run: main results -/

/-- C12: if the colour-ramp loader returns an error, `Run` returns that error and has
had no effect at all: no call of the field function, no buffer allocated, no
normalization and no output file created. -/
theorem run_aborts_on_load_error (env : Env) (opts : Options) (e : String)
    (h : env.loadResult = Except.error e) :
    (Run env opts).1 = Outcome.returned (some e) ∧
    (Run env opts).2 = [] ∧
    (∀ x y, Event.fieldCall x y ∉ (Run env opts).2) ∧
    (∀ n, Event.allocBuffer n ∉ (Run env opts).2) ∧
    Event.normalizeBuffer ∉ (Run env opts).2 ∧
    (∀ path, Event.createFile path ∉ (Run env opts).2) := by
  have hrun : Run env opts = (Outcome.returned (some e), []) := by
    unfold Run
    rw [h]
  rw [hrun]
  simp

/-- Instance of C12: the loader fails with the error text "no such file". -/
theorem run_aborts_on_load_error_witness :
    (Env.mk (Except.error "no such file") none none 2 [(0, 0), (1, 0)]).loadResult
      = Except.error "no such file" ∧
    ((Run (Env.mk (Except.error "no such file") none none 2 [(0, 0), (1, 0)])
        (Options.mk "ramp.png" "out.png" 1 2 1 fun x _ => (x : ℚ))).1
      = Outcome.returned (some "no such file") ∧
    (Run (Env.mk (Except.error "no such file") none none 2 [(0, 0), (1, 0)])
        (Options.mk "ramp.png" "out.png" 1 2 1 fun x _ => (x : ℚ))).2 = [] ∧
    (∀ x y, Event.fieldCall x y ∉ (Run (Env.mk (Except.error "no such file") none none 2
        [(0, 0), (1, 0)]) (Options.mk "ramp.png" "out.png" 1 2 1 fun x _ => (x : ℚ))).2) ∧
    (∀ n, Event.allocBuffer n ∉ (Run (Env.mk (Except.error "no such file") none none 2
        [(0, 0), (1, 0)]) (Options.mk "ramp.png" "out.png" 1 2 1 fun x _ => (x : ℚ))).2) ∧
    Event.normalizeBuffer ∉ (Run (Env.mk (Except.error "no such file") none none 2
        [(0, 0), (1, 0)]) (Options.mk "ramp.png" "out.png" 1 2 1 fun x _ => (x : ℚ))).2 ∧
    (∀ path, Event.createFile path ∉ (Run (Env.mk (Except.error "no such file") none none 2
        [(0, 0), (1, 0)]) (Options.mk "ramp.png" "out.png" 1 2 1 fun x _ => (x : ℚ))).2)) :=
  ⟨rfl, run_aborts_on_load_error _ _ "no such file" rfl⟩

/-! ## Further lemmas on the pipeline -/

theorem minMax_bounds {data : List ℚ} {mx mn : ℚ} (h : minMax data = some (mx, mn)) :
    mx ∈ data ∧ mn ∈ data ∧ ∀ v ∈ data, mn ≤ v ∧ v ≤ mx := by
  have hne : data ≠ [] := by
    intro h0
    rw [h0] at h
    simp [minMax] at h
  obtain ⟨mx1, mn1, h1, hmx, hmn, hall⟩ := minMax_spec hne
  rw [h] at h1
  simp only [Option.some.injEq, Prod.mk.injEq] at h1
  obtain ⟨rfl, rfl⟩ := h1
  exact ⟨hmx, hmn, hall⟩

theorem schedule_data (workers width height : Nat) (field : Nat → Nat → ℚ)
    (hW : 1 ≤ workers) (sched : List (Nat × Nat))
    (hs : IsSchedule workers width height sched) :
    ∃ st, runCells width field (initState width height) sched = some st ∧
      st.data = (List.range (width * height)).map (fun i => field (i % width) (i / width)) ∧
      (0 < width * height → st.cnt = wrapInt32 ((width * height : Nat) : Int)) := by
  obtain ⟨st, hrun, hlen, hval, _, hcnt⟩ :=
    runCells_schedule workers width height field hW sched hs
  refine ⟨st, hrun, ?_, hcnt⟩
  apply List.ext_getElem?
  intro n
  by_cases hn : n < width * height
  · have hw : 0 < width := by
      rcases Nat.eq_zero_or_pos width with h | h
      · rw [h, Nat.zero_mul] at hn
        omega
      · exact h
    have hx : n % width < width := Nat.mod_lt _ hw
    have hy : n / width < height := by
      rw [Nat.div_lt_iff_lt_mul hw, Nat.mul_comm]
      exact hn
    have hidx : n / width * width + n % width = n := Nat.div_add_mod' n width
    have h1 := hval (n % width) (n / width) hx hy
    rw [hidx] at h1
    rw [h1, List.getElem?_map, List.getElem?_range hn]
    rfl
  · rw [List.getElem?_eq_none (by omega), List.getElem?_eq_none (by simp; omega)]

theorem mem_workerIndices {workers width height i idx : Nat} (hw : 0 < width) :
    idx ∈ workerIndices workers width height i ↔
      idx < width * height ∧ idx % width % workers = i := by
  simp only [workerIndices, List.mem_map, mem_workerCells]
  constructor
  · rintro ⟨c, ⟨hx, hm, hy⟩, rfl⟩
    have hmod : (c.2 * width + c.1) % width = c.1 := by
      rw [Nat.add_comm, Nat.add_mul_mod_self_right, Nat.mod_eq_of_lt hx]
    exact ⟨cell_index_lt hx hy, by rw [hmod]; exact hm⟩
  · rintro ⟨hlt, hm⟩
    refine ⟨(idx % width, idx / width), ⟨Nat.mod_lt _ hw, hm, ?_⟩, Nat.div_add_mod' idx width⟩
    show idx / width < height
    rw [Nat.div_lt_iff_lt_mul hw, Nat.mul_comm]
    exact hlt

theorem Run_outcome_of_ok (env : Env) (opts : Options) (hm : List Color) (img : List RGBA)
    (hload : env.loadResult = Except.ok hm)
    (hw : 0 < opts.Width) (hh : 0 < opts.Height) (hW : 1 ≤ env.workers)
    (hs : IsSchedule env.workers opts.Width opts.Height env.sched)
    (hsmall : opts.Width * opts.Height < 2147483648)
    (hr : renderWith env.sched opts.Width opts.Height opts.Field hm = some img) :
    (Run env opts).1 =
      match env.createResult with
      | some cause => Outcome.returned (some (createErrorMessage opts.OutputFile cause))
      | none =>
        match env.encodeResult with
        | some cause => Outcome.returned (some (encodeErrorMessage cause))
        | none => Outcome.returned none := by
  obtain ⟨st, hrun, _, _, _, hcnt⟩ :=
    runCells_schedule env.workers opts.Width opts.Height opts.Field hW env.sched hs
  have hcnt1 : st.cnt = ((opts.Width * opts.Height : Nat) : Int) := by
    rw [hcnt (Nat.mul_pos hw hh)]
    apply wrapInt32_of_small
    · omega
    · omega
  unfold renderWith at hr
  rw [hrun] at hr
  simp only [] at hr
  cases hn : normalize st.data with
  | none => simp [hn] at hr
  | some data =>
    rw [hn] at hr
    simp only [] at hr
    unfold Run
    rw [hload]
    simp only [hrun, hcnt1, ne_eq, not_true_eq_false, if_false, hn, hr]
    cases env.createResult with
    | some cause => rfl
    | none =>
      cases env.encodeResult with
      | some cause => rfl
      | none => rfl

theorem createErrorMessage_carries (path cause : String) :
    CarriesContext (createErrorMessage path cause) "create output file" cause := by
  refine ⟨"failed to ", " \x27" ++ path ++ "\x27: ", ?_⟩
  unfold createErrorMessage
  have h : "failed to create output file \x27" = "failed to " ++ "create output file" ++ " \x27" := by
    decide
  rw [h]
  simp only [String.append_assoc]

theorem encodeErrorMessage_carries (cause : String) :
    CarriesContext (encodeErrorMessage cause) "encode to PNG" cause := by
  refine ⟨"failed to ", ": ", ?_⟩
  unfold encodeErrorMessage
  have h : "failed to encode to PNG: " = "failed to " ++ "encode to PNG" ++ ": " := by decide
  rw [h]

theorem Run_cases (env : Env) (opts : Options) :
    (∃ e, env.loadResult = Except.error e ∧ Run env opts = (Outcome.returned (some e), [])) ∨
    (∃ hm, env.loadResult = Except.ok hm ∧
      ((Run env opts).1 = Outcome.panicked ∨ (Run env opts).1 = Outcome.blocked) ∧
      Event.createFile opts.OutputFile ∉ (Run env opts).2 ∧
      Event.encodePNG ∉ (Run env opts).2) ∨
    (∃ hm cause, env.loadResult = Except.ok hm ∧ env.createResult = some cause ∧
      (Run env opts).1 = Outcome.returned (some (createErrorMessage opts.OutputFile cause)) ∧
      Event.createFile opts.OutputFile ∈ (Run env opts).2 ∧
      Event.encodePNG ∉ (Run env opts).2) ∨
    (∃ hm cause, env.loadResult = Except.ok hm ∧ env.createResult = none ∧
      env.encodeResult = some cause ∧
      (Run env opts).1 = Outcome.returned (some (encodeErrorMessage cause)) ∧
      Event.createFile opts.OutputFile ∈ (Run env opts).2 ∧
      Event.encodePNG ∈ (Run env opts).2) ∨
    (∃ hm, env.loadResult = Except.ok hm ∧ env.createResult = none ∧
      env.encodeResult = none ∧
      (Run env opts).1 = Outcome.returned none ∧
      Event.createFile opts.OutputFile ∈ (Run env opts).2 ∧
      Event.encodePNG ∈ (Run env opts).2) := by
  cases hl : env.loadResult with
  | error e =>
    left
    exact ⟨e, rfl, by unfold Run; rw [hl]⟩
  | ok hm =>
    right
    cases hrun : runCells opts.Width opts.Field (initState opts.Width opts.Height) env.sched with
    | none =>
      left
      refine ⟨hm, rfl, ?_⟩
      unfold Run
      simp [hl, hrun]
    | some st =>
      by_cases hc : st.cnt = (opts.Width : Int) * (opts.Height : Int)
      · cases hn : normalize st.data with
        | none =>
          left
          refine ⟨hm, rfl, ?_⟩
          unfold Run
          simp [hl, hrun, hc, hn]
        | some data =>
          cases hcm : colorMap opts.Width opts.Height hm data with
          | none =>
            left
            refine ⟨hm, rfl, ?_⟩
            unfold Run
            simp [hl, hrun, hc, hn, hcm]
          | some img =>
            right
            cases hcr : env.createResult with
            | some cause =>
              left
              refine ⟨hm, cause, rfl, rfl, ?_⟩
              unfold Run
              simp [hl, hrun, hc, hn, hcm, hcr]
            | none =>
              right
              cases her : env.encodeResult with
              | some cause =>
                left
                refine ⟨hm, cause, rfl, rfl, rfl, ?_⟩
                unfold Run
                simp [hl, hrun, hc, hn, hcm, hcr, her]
              | none =>
                right
                refine ⟨hm, rfl, rfl, rfl, ?_⟩
                unfold Run
                simp [hl, hrun, hc, hn, hcm, hcr, her]
      · left
        refine ⟨hm, rfl, ?_⟩
        unfold Run
        simp [hl, hrun, hc]

/-! ## The whole of Run: error reporting -/

/-- C13: `Run` returns nil if and only if the ramp load succeeds, the output file is
created without error and the encoding is done without error; and for each of the
three failures the error returned carries the name of the failed operation and the
underlying cause: a loader failure is handed on with the context the loader gave it,
a creation failure and an encoding failure are wrapped by `Run`.  For width,
height > 0 and in-range ramp indices a run that returns has attempted the creation,
and the encoding once the creation succeeded. -/
theorem run_error_contract (env : Env) (opts : Options) :
    ((Run env opts).1 = Outcome.returned none ↔
      (∃ hm, env.loadResult = Except.ok hm) ∧
      (Event.createFile opts.OutputFile ∈ (Run env opts).2 ∧ env.createResult = none) ∧
      (Event.encodePNG ∈ (Run env opts).2 ∧ env.encodeResult = none)) ∧
    (∀ f : LoadFailure, env.loadResult = Except.error f.message →
      ∃ msg, (Run env opts).1 = Outcome.returned (some msg) ∧
        CarriesContext msg f.operation f.cause) ∧
    (∀ cause, Event.createFile opts.OutputFile ∈ (Run env opts).2 →
      env.createResult = some cause →
      ∃ msg, (Run env opts).1 = Outcome.returned (some msg) ∧
        CarriesContext msg "create output file" cause) ∧
    (∀ cause, Event.encodePNG ∈ (Run env opts).2 → env.encodeResult = some cause →
      ∃ msg, (Run env opts).1 = Outcome.returned (some msg) ∧
        CarriesContext msg "encode to PNG" cause) ∧
    (∀ hm img, 0 < opts.Width → 0 < opts.Height → 1 ≤ env.workers →
      IsSchedule env.workers opts.Width opts.Height env.sched →
      env.loadResult = Except.ok hm →
      renderWith env.sched opts.Width opts.Height opts.Field hm = some img →
      (Run env opts).1 ≠ Outcome.blocked →
      Event.createFile opts.OutputFile ∈ (Run env opts).2 ∧
        (env.createResult = none → Event.encodePNG ∈ (Run env opts).2)) := by
  refine ⟨?_, ?_, ?_, ?_, ?_⟩
  · rcases Run_cases env opts with ⟨e, hl, hr⟩ | ⟨hm, hl, ho, hc, he⟩ |
      ⟨hm, cause, hl, hcr, ho, hc, he⟩ | ⟨hm, cause, hl, hcr, her, ho, hc, he⟩ |
      ⟨hm, hl, hcr, her, ho, hc, he⟩
    · simp [hr, hl]
    · rcases ho with ho | ho <;> simp [ho, hc]
    · simp [ho, hcr]
    · simp [ho, her]
    · simp [ho, hl, hcr, her, hc, he]
  · intro f hf
    refine ⟨f.message, ?_, f.carries⟩
    unfold Run
    rw [hf]
  · intro cause hmem hcause
    rcases Run_cases env opts with ⟨e, hl, hr⟩ | ⟨hm, hl, ho, hc, he⟩ |
      ⟨hm, cause1, hl, hcr, ho, hc, he⟩ | ⟨hm, cause1, hl, hcr, her, ho, hc, he⟩ |
      ⟨hm, hl, hcr, her, ho, hc, he⟩
    · rw [hr] at hmem
      simp at hmem
    · exact absurd hmem hc
    · rw [hcr] at hcause
      obtain rfl := Option.some.inj hcause
      exact ⟨_, ho, createErrorMessage_carries _ _⟩
    · rw [hcr] at hcause
      simp at hcause
    · rw [hcr] at hcause
      simp at hcause
  · intro cause hmem hcause
    rcases Run_cases env opts with ⟨e, hl, hr⟩ | ⟨hm, hl, ho, hc, he⟩ |
      ⟨hm, cause1, hl, hcr, ho, hc, he⟩ | ⟨hm, cause1, hl, hcr, her, ho, hc, he⟩ |
      ⟨hm, hl, hcr, her, ho, hc, he⟩
    · rw [hr] at hmem
      simp at hmem
    · exact absurd hmem he
    · exact absurd hmem he
    · rw [her] at hcause
      obtain rfl := Option.some.inj hcause
      exact ⟨_, ho, encodeErrorMessage_carries _⟩
    · rw [her] at hcause
      simp at hcause
  · intro hm img _ _ hW hs hl hr hnb
    obtain ⟨st, hrun, _⟩ :=
      runCells_schedule env.workers opts.Width opts.Height opts.Field hW env.sched hs
    unfold renderWith at hr
    rw [hrun] at hr
    simp only [] at hr
    cases hn : normalize st.data with
    | none => simp [hn] at hr
    | some data =>
      rw [hn] at hr
      simp only [] at hr
      rcases Run_cases env opts with ⟨e, hl1, _⟩ | ⟨hm1, hl1, ho, _, _⟩ |
        ⟨hm1, cause1, hl1, hcr, ho, hc, he⟩ | ⟨hm1, cause1, hl1, hcr, her, ho, hc, he⟩ |
        ⟨hm1, hl1, hcr, her, ho, hc, he⟩
      · rw [hl] at hl1
        simp at hl1
      · rcases ho with ho | ho
        · exfalso
          revert ho
          unfold Run
          rw [hl]
          simp only [hrun, hn, hr]
          split
          · simp
          · cases env.createResult with
            | some c => simp
            | none =>
              cases env.encodeResult with
              | some c => simp
              | none => simp
        · exact absurd ho hnb
      · exact ⟨hc, fun h => by rw [hcr] at h; simp at h⟩
      · exact ⟨hc, fun _ => he⟩
      · exact ⟨hc, fun _ => he⟩

/-- Instance of C13: on a 2x1 grid with ramp [black, white], a loader failure with the
text "failed to load heatmap: EOF" (operation "load heatmap", cause "EOF"), and a
creation of the output file that fails with "permission denied". -/
theorem run_error_contract_witness :
    (Env.mk (Except.error "failed to load heatmap: EOF") none none 1
      [(0, 0), (1, 0)]).loadResult = Except.error "failed to load heatmap: EOF" ∧
    (∃ msg, (Run (Env.mk (Except.error "failed to load heatmap: EOF") none none 1
        [(0, 0), (1, 0)]) (Options.mk "ramp.png" "out.png" 1 2 1 fun x _ => (x : ℚ))).1
        = Outcome.returned (some msg) ∧ CarriesContext msg "load heatmap" "EOF") ∧
    Event.createFile "out.png" ∈ (Run (Env.mk (Except.ok [black, white])
        (some "permission denied") none 1 [(0, 0), (1, 0)])
        (Options.mk "ramp.png" "out.png" 1 2 1 fun x _ => (x : ℚ))).2 ∧
    (∃ msg, (Run (Env.mk (Except.ok [black, white]) (some "permission denied") none 1
        [(0, 0), (1, 0)]) (Options.mk "ramp.png" "out.png" 1 2 1 fun x _ => (x : ℚ))).1
        = Outcome.returned (some msg) ∧
        CarriesContext msg "create output file" "permission denied") :=
  ⟨rfl,
    (run_error_contract
      (Env.mk (Except.error "failed to load heatmap: EOF") none none 1 [(0, 0), (1, 0)])
      (Options.mk "ramp.png" "out.png" 1 2 1 fun x _ => (x : ℚ))).2.1
      (LoadFailure.mk "load heatmap" "EOF" "failed to load heatmap: EOF"
        ⟨"failed to ", ": ", by decide⟩) rfl,
    by decide!,
    (run_error_contract
      (Env.mk (Except.ok [black, white]) (some "permission denied") none 1 [(0, 0), (1, 0)])
      (Options.mk "ramp.png" "out.png" 1 2 1 fun x _ => (x : ℚ))).2.2.1
      "permission denied" (by decide!) rfl⟩

/-! ## Determinism, disjoint writes, bounds and monotonicity -/

/-- C14: for the same width, height, field and ramp, the evaluation, normalization
and colour-mapping stages give the same result under any two worker counts of at
least 1 and any two schedules of the workers' cell visits. -/
theorem render_deterministic (workers1 workers2 width height : Nat)
    (field : Nat → Nat → ℚ) (hm : List Color) (sched1 sched2 : List (Nat × Nat))
    (hW1 : 1 ≤ workers1) (hW2 : 1 ≤ workers2)
    (hs1 : IsSchedule workers1 width height sched1)
    (hs2 : IsSchedule workers2 width height sched2) :
    renderWith sched1 width height field hm = renderWith sched2 width height field hm := by
  obtain ⟨st1, hrun1, hdata1, _⟩ := schedule_data workers1 width height field hW1 sched1 hs1
  obtain ⟨st2, hrun2, hdata2, _⟩ := schedule_data workers2 width height field hW2 sched2 hs2
  unfold renderWith
  rw [hrun1, hrun2]
  simp only [hdata1, hdata2]

/-- Instance of C14: a 3x1 grid evaluated by one worker in column order and by two
workers in another order. -/
theorem render_deterministic_witness :
    1 ≤ 1 ∧ 1 ≤ 2 ∧ IsSchedule 1 3 1 [(0, 0), (1, 0), (2, 0)] ∧
    IsSchedule 2 3 1 [(1, 0), (2, 0), (0, 0)] ∧
    renderWith [(0, 0), (1, 0), (2, 0)] 3 1 (fun x _ => (x : ℚ)) [red, green, blue]
      = renderWith [(1, 0), (2, 0), (0, 0)] 3 1 (fun x _ => (x : ℚ)) [red, green, blue] :=
  ⟨by decide, by decide, by decide, by decide,
    render_deterministic 1 2 3 1 (fun x _ => (x : ℚ)) [red, green, blue]
      [(0, 0), (1, 0), (2, 0)] [(1, 0), (2, 0), (0, 0)] (by decide) (by decide) (by decide)
      (by decide)⟩

/-- C15: for width > 0, height > 0 and a worker count of at least 1, two different
workers write disjoint sets of buffer indices `y*width + x`; every index below
`width*height` is written by exactly one worker, and no worker writes it twice. -/
theorem worker_indices_disjoint (workers width height : Nat) (hw : 0 < width)
    (_hh : 0 < height) (hW : 1 ≤ workers) :
    (∀ i j, i ≠ j → ∀ idx, idx ∈ workerIndices workers width height i →
      idx ∉ workerIndices workers width height j) ∧
    (∀ idx, idx < width * height →
      ∃! i, i < workers ∧ idx ∈ workerIndices workers width height i) ∧
    (∀ i idx, idx ∈ workerIndices workers width height i → idx < width * height) ∧
    (∀ i, (workerIndices workers width height i).Nodup) := by
  refine ⟨?_, ?_, ?_, ?_⟩
  · intro i j hij idx hi hj
    rw [mem_workerIndices hw] at hi hj
    exact hij (hi.2.symm.trans hj.2)
  · intro idx hidx
    refine ⟨idx % width % workers, ⟨Nat.mod_lt _ (by omega), ?_⟩, ?_⟩
    · exact (mem_workerIndices hw).2 ⟨hidx, rfl⟩
    · rintro i ⟨_, hi⟩
      exact ((mem_workerIndices hw).1 hi).2.symm
  · intro i idx hi
    exact ((mem_workerIndices hw).1 hi).1
  · intro i
    unfold workerIndices
    refine List.Nodup.map_on ?_ (nodup_workerCells workers width height i)
    intro c hc d hd hcd
    rw [mem_workerCells] at hc hd
    obtain ⟨h1, h2⟩ := cell_index_inj hc.1 hd.1 hcd
    exact Prod.ext h1 h2

/-- Instance of C15: two workers on a 3x2 grid. -/
theorem worker_indices_disjoint_witness :
    0 < 3 ∧ 0 < 2 ∧ 1 ≤ 2 ∧
    ((∀ i j, i ≠ j → ∀ idx, idx ∈ workerIndices 2 3 2 i → idx ∉ workerIndices 2 3 2 j) ∧
    (∀ idx, idx < 3 * 2 → ∃! i, i < 2 ∧ idx ∈ workerIndices 2 3 2 i) ∧
    (∀ i idx, idx ∈ workerIndices 2 3 2 i → idx < 3 * 2) ∧
    (∀ i, (workerIndices 2 3 2 i).Nodup)) :=
  ⟨by decide, by decide, by decide,
    worker_indices_disjoint 2 3 2 (by decide) (by decide) (by decide)⟩

/-- C16: for width > 0 and height > 0, every index `y*width + x` of a grid cell is
below `width*height`; under every schedule the writes of the evaluation stay in
bounds (the evaluation does not abort), the buffer read by the min/max pass has an
element at index 0, and every read `data[y*width + x]` of the colour mapper finds an
element of the normalized buffer. -/
theorem buffer_accesses_in_bounds (workers width height : Nat) (field : Nat → Nat → ℚ)
    (sched : List (Nat × Nat)) (hw : 0 < width) (hh : 0 < height) (hW : 1 ≤ workers)
    (hs : IsSchedule workers width height sched) :
    (∀ x y, x < width → y < height →
      y * width + x < (initState width height).data.length) ∧
    ∃ st, runCells width field (initState width height) sched = some st ∧
      st.data.length = width * height ∧
      (∃ d0, st.data[0]? = some d0) ∧
      (∃ mm, minMax st.data = some mm) ∧
      ∃ nd, normalize st.data = some nd ∧ nd.length = width * height ∧
        ∀ x y, x < width → y < height → ∃ v, nd[y * width + x]? = some v := by
  constructor
  · intro x y hx hy
    simpa [initState] using cell_index_lt hx hy
  · obtain ⟨st, hrun, hlen, _, _⟩ := runCells_schedule workers width height field hW sched hs
    have hpos : 0 < st.data.length := by
      rw [hlen]
      exact Nat.mul_pos hw hh
    have hne : st.data ≠ [] := List.ne_nil_of_length_pos hpos
    obtain ⟨mx, mn, hmm, _, _, _⟩ := minMax_spec hne
    have hnlen : (if mx - mn ≥ epsilon then st.data.map (fun v => (v - mn) / (mx - mn))
        else st.data).length = width * height := by
      split
      · rw [List.length_map, hlen]
      · exact hlen
    refine ⟨st, hrun, hlen, ⟨st.data[0], List.getElem?_eq_getElem hpos⟩, ⟨(mx, mn), hmm⟩,
      _, normalize_eq hmm, hnlen, ?_⟩
    intro x y hx hy
    have hidx : y * width + x < (if mx - mn ≥ epsilon then
        st.data.map (fun v => (v - mn) / (mx - mn)) else st.data).length := by
      rw [hnlen]
      exact cell_index_lt hx hy
    exact ⟨_, List.getElem?_eq_getElem hidx⟩

/-- Instance of C16: two workers on a 2x1 grid with field `(x, y) ↦ x`. -/
theorem buffer_accesses_in_bounds_witness :
    0 < 2 ∧ 0 < 1 ∧ 1 ≤ 2 ∧ IsSchedule 2 2 1 [(1, 0), (0, 0)] ∧
    ((∀ x y, x < 2 → y < 1 → y * 2 + x < (initState 2 1).data.length) ∧
    ∃ st, runCells 2 (fun x _ => (x : ℚ)) (initState 2 1) [(1, 0), (0, 0)] = some st ∧
      st.data.length = 2 * 1 ∧
      (∃ d0, st.data[0]? = some d0) ∧
      (∃ mm, minMax st.data = some mm) ∧
      ∃ nd, normalize st.data = some nd ∧ nd.length = 2 * 1 ∧
        ∀ x y, x < 2 → y < 1 → ∃ v, nd[y * 2 + x]? = some v) :=
  ⟨by decide, by decide, by decide, by decide,
    buffer_accesses_in_bounds 2 2 1 (fun x _ => (x : ℚ)) [(1, 0), (0, 0)] (by decide)
      (by decide) (by decide) (by decide)⟩

/-- C17: for a buffer with spread at least 1e-8, a ramp of length L >= 1 and two
entries `u <= v` of the buffer, the normalized values satisfy `u' <= v'` and their
ramp indices satisfy `pos u' <= pos v'`. -/
theorem normalize_index_monotone (hm : List Color) (data : List ℚ) (mx mn u v : ℚ)
    (hL : 1 ≤ hm.length) (h : minMax data = some (mx, mn)) (hs : mx - mn ≥ epsilon)
    (hu : u ∈ data) (_hv : v ∈ data) (huv : u ≤ v) :
    normalize data = some (data.map fun w => (w - mn) / (mx - mn)) ∧
    (u - mn) / (mx - mn) ≤ (v - mn) / (mx - mn) ∧
    rampPos ((u - mn) / (mx - mn)) hm.length ≤ rampPos ((v - mn) / (mx - mn)) hm.length := by
  obtain ⟨_, _, hall⟩ := minMax_bounds h
  have heps : (0 : ℚ) < epsilon := by norm_num [epsilon]
  have hpos : 0 < mx - mn := lt_of_lt_of_le heps hs
  have hL1 : (0 : ℚ) ≤ (hm.length : ℚ) - 1 := by
    have : (1 : ℚ) ≤ (hm.length : ℚ) := by exact_mod_cast hL
    linarith
  have hle : (u - mn) / (mx - mn) ≤ (v - mn) / (mx - mn) :=
    div_le_div_of_nonneg_right (by linarith) (le_of_lt hpos)
  have hu0 : 0 ≤ (u - mn) / (mx - mn) :=
    div_nonneg (by linarith [(hall u hu).1]) (le_of_lt hpos)
  have hv0 : 0 ≤ (v - mn) / (mx - mn) := le_trans hu0 hle
  refine ⟨by rw [normalize_eq h, if_pos hs], hle, ?_⟩
  rw [rampPos_of_nonneg hL hu0, rampPos_of_nonneg hL hv0]
  exact Int.floor_le_floor (mul_le_mul_of_nonneg_right hle hL1)

/-- Instance of C17: the buffer `[3, 1, 2]`, the ramp [red, green, blue] and the
entries 1 and 2. -/
theorem normalize_index_monotone_witness :
    1 ≤ [red, green, blue].length ∧ minMax [3, 1, 2] = some (3, 1) ∧
    (3 : ℚ) - 1 ≥ epsilon ∧ (1 : ℚ) ∈ ([3, 1, 2] : List ℚ) ∧ (2 : ℚ) ∈ ([3, 1, 2] : List ℚ) ∧
    (1 : ℚ) ≤ 2 ∧
    (normalize [3, 1, 2] = some (([3, 1, 2] : List ℚ).map fun w => (w - 1) / (3 - 1)) ∧
    ((1 : ℚ) - 1) / (3 - 1) ≤ (2 - 1) / (3 - 1) ∧
    rampPos (((1 : ℚ) - 1) / (3 - 1)) [red, green, blue].length
      ≤ rampPos (((2 : ℚ) - 1) / (3 - 1)) [red, green, blue].length) :=
  ⟨by decide, by decide!, by norm_num [epsilon], by simp, by simp, by norm_num,
    normalize_index_monotone [red, green, blue] [3, 1, 2] 3 1 1 2 (by decide) (by decide!)
      (by norm_num [epsilon]) (by simp) (by simp) (by norm_num)⟩

end FieldRenderer
